import Mathlib

/-!
Verification development for the GOST document-formatting pipeline
(`app/services/formatter.py`, `app/utils/file_manager.py`,
`app/config/settings.py` of the Telegram-bot repository).

The document model (paragraphs made of styled runs, plus tables) and every
pipeline stage of `format_document` are embedded as executable Lean
definitions, translated function-by-function from the Python source.
String-level passes that the source implements with `re.sub` are realized
as explicit left-to-right scanners with the same matching discipline
(leftmost match, ordered alternation, greedy quantifiers over disjoint
character classes, continuation after the match).

Python's `str.lower` / `str.upper` / `isupper` / `isalpha` and the regex
character classes are modelled on the ASCII and Cyrillic ranges, which are
the alphabets this program manipulates.
-/

namespace Gost

/-! ## Character-level utilities (Python str methods) -/

/-- Non-breaking space U+00A0, `NBSP` in the source. -/
def NBSP : Char := Char.ofNat 160

/-- Python whitespace for `str.strip` and regex `\s`
(space, tab, newline, carriage return, vertical tab, form feed, NBSP). -/
def isPySpace (c : Char) : Bool :=
  c = ' ' || c = '\t' || c = '\n' || c = '\r' ||
  c = Char.ofNat 11 || c = Char.ofNat 12 || c = NBSP

/-- Python `str.upper` on one character (ASCII and Cyrillic). -/
def pyUpperChar (c : Char) : Char :=
  if 'a' ≤ c ∧ c ≤ 'z' then Char.ofNat (c.toNat - 32)
  else if 'а' ≤ c ∧ c ≤ 'я' then Char.ofNat (c.toNat - 32)
  else if c = 'ё' then 'Ё'
  else c

/-- Python `str.lower` on one character (ASCII and Cyrillic). -/
def pyLowerChar (c : Char) : Char :=
  if 'A' ≤ c ∧ c ≤ 'Z' then Char.ofNat (c.toNat + 32)
  else if 'А' ≤ c ∧ c ≤ 'Я' then Char.ofNat (c.toNat + 32)
  else if c = 'Ё' then 'ё'
  else c

/-- Python `Char.isupper` (ASCII and Cyrillic). -/
def pyIsUpper (c : Char) : Bool :=
  ('A' ≤ c && c ≤ 'Z') || ('А' ≤ c && c ≤ 'Я') || c = 'Ё'

/-- Python `Char.islower` (ASCII and Cyrillic). -/
def pyIsLower (c : Char) : Bool :=
  ('a' ≤ c && c ≤ 'z') || ('а' ≤ c && c ≤ 'я') || c = 'ё'

/-- Python `Char.isalpha` (ASCII and Cyrillic). -/
def pyIsAlpha (c : Char) : Bool := pyIsUpper c || pyIsLower c

def isAsciiDigit (c : Char) : Bool := '0' ≤ c && c ≤ '9'

/-- Regex word character `\w` (for `\b` boundaries), on our alphabets. -/
def pyIsWord (c : Char) : Bool := pyIsAlpha c || isAsciiDigit c || c = '_'

/-- The class `[А-ЯA-Z]` (no IGNORECASE): capital used for initials and
the colon pass.  Note the Cyrillic range А-Я does not include Ё. -/
def isInitCap (c : Char) : Bool :=
  ('А' ≤ c && c ≤ 'Я') || ('A' ≤ c && c ≤ 'Z')

/-- The class `[а-яa-z]` (no IGNORECASE). -/
def isInitLow (c : Char) : Bool :=
  ('а' ≤ c && c ≤ 'я') || ('a' ≤ c && c ≤ 'z')

def pyUpperStr (s : String) : String := String.mk (s.toList.map pyUpperChar)

def pyLowerStr (s : String) : String := String.mk (s.toList.map pyLowerChar)

def pyStripList (l : List Char) : List Char :=
  ((l.dropWhile isPySpace).reverse.dropWhile isPySpace).reverse

/-- Python `str.strip()`. -/
def pyStrip (s : String) : String := String.mk (pyStripList s.toList)

/-- Python `str.rstrip()`. -/
def pyRstrip (s : String) : String :=
  String.mk ((s.toList.reverse.dropWhile isPySpace).reverse)

/-- Python `str.lstrip()`. -/
def pyLstrip (s : String) : String := String.mk (s.toList.dropWhile isPySpace)

/-- Python `str.lstrip(' ')` (ASCII space only). -/
def lstripSpaces (s : String) : String :=
  String.mk (s.toList.dropWhile (fun c => c = ' '))

/-- Python `str.startswith`, kernel-reducible. -/
def strStartsWith (s pre : String) : Bool := pre.toList.isPrefixOf s.toList

/-- Python `str.endswith`, kernel-reducible. -/
def strEndsWith (s suf : String) : Bool := suf.toList.reverse.isPrefixOf s.toList.reverse

/-- Python `str.replace(pat, rep)`: leftmost, non-overlapping, continue
after the replacement.  Fuelled for structural recursion; the wrapper
passes enough fuel that it never runs out. -/
def pyReplaceGo (pat rep : List Char) : Nat → List Char → List Char
  | 0, s => s
  | _ + 1, [] => []
  | fuel + 1, c :: rest =>
    if pat.isPrefixOf (c :: rest) then rep ++ pyReplaceGo pat rep fuel ((c :: rest).drop pat.length)
    else c :: pyReplaceGo pat rep fuel rest

/-- Python `str.replace` on strings (all patterns used are nonempty). -/
def pyReplace (pat rep s : String) : String :=
  String.mk (pyReplaceGo pat.toList rep.toList (s.toList.length + 1) s.toList)

/-- `s.toLower` comparison helper: does `l` start (case-insensitively, per
`pyLowerChar`) with the lowercase pattern `pat`? -/
def ciStartsWith (l : List Char) (pat : List Char) : Bool :=
  (l.take pat.length).map pyLowerChar == pat

/-- Length of the leading whitespace run (regex `\s*` / `\s+`). -/
def takeWs (l : List Char) : Nat := (l.takeWhile isPySpace).length

/-- Length of the leading digit run (regex `\d*` / `\d+`). -/
def takeDigits (l : List Char) : Nat := (l.takeWhile isAsciiDigit).length

/-! ## Generic `re.sub` scanner

`tryM prev s` attempts a match at the current position (with `prev` the
character immediately before the position, for lookbehind and `\b`);
on success it returns the matched length (≥ 1) and the replacement.
Scanning is leftmost; after a match it continues at the first position
past the match, as `re.sub` does. -/

def scanSub (tryM : Option Char → List Char → Option (Nat × List Char)) :
    Nat → Option Char → List Char → List Char
  | 0, _, s => s
  | _ + 1, _, [] => []
  | fuel + 1, prev, c :: rest =>
    match tryM prev (c :: rest) with
    | some (n, rep) =>
      if n = 0 then c :: scanSub tryM fuel (some c) rest
      else rep ++ scanSub tryM fuel (((c :: rest).take n).getLast?) ((c :: rest).drop n)
    | none => c :: scanSub tryM fuel (some c) rest

def runSub (tryM : Option Char → List Char → Option (Nat × List Char))
    (l : List Char) : List Char :=
  scanSub tryM (l.length + 1) none l

/-! ## Document model

`python-docx` objects, restricted to the state this program reads and
writes: run text and font (name, size, bold), paragraph alignment,
indents (in hundredths of a centimetre), spacing before/after (points),
line spacing (tenths), the page-break-before flag, and the structural
facts the classifier consults (`numPr` list metadata, embedded image,
hyperlink presence). -/

inductive Align
  | left
  | center
  | justify
deriving DecidableEq, Repr

structure Run where
  text : String
  fontName : Option String := none
  sizePt : Option Nat := none
  bold : Option Bool := none
deriving DecidableEq, Repr

structure Para where
  runs : List Run := []
  numPr : Bool := false
  image : Bool := false
  hyperlink : Bool := false
  alignment : Option Align := none
  firstLineIndentCm100 : Option Int := none
  leftIndentCm100 : Option Int := none
  spaceBeforePt : Option Nat := none
  spaceAfterPt : Option Nat := none
  lineSpacingX10 : Option Nat := none
  pageBreakBefore : Bool := false
deriving DecidableEq, Repr

def emptyPara : Para := {}

instance : Inhabited Para := ⟨emptyPara⟩

instance : Inhabited Run := ⟨{ text := "" }⟩

/-- A table: rows of cells of paragraphs. -/
abbrev Table := List (List (List Para))

structure Doc where
  paras : List Para := []
  tables : List Table := []
deriving DecidableEq

/-- `paragraph.text`: concatenation of the runs' text. -/
def paraText (p : Para) : String := String.join (p.runs.map Run.text)

def docTexts (d : Doc) : List String := d.paras.map paraText

/-! ## Configuration (`app/config/settings.py`) -/

def GOST_FONT_NAME : String := "Times New Roman"

def GOST_FONT_SIZE : Nat := 14

/-- `GOST_LINE_SPACING = 1.5`, in tenths. -/
def GOST_LINE_SPACING_X10 : Nat := 15

/-- `GOST_INDENT_CM = 1.25`, in hundredths of a centimetre. -/
def GOST_INDENT_CM100 : Int := 125

/-- `Settings.ALLOWED_EXTENSIONS`. -/
def ALLOWED_EXTENSIONS : List String := [".docx", ".doc"]

/-- `file_manager.is_valid_document`. -/
def is_valid_document (filename : String) : Bool :=
  ALLOWED_EXTENSIONS.any (fun ext => strEndsWith (pyLowerStr filename) ext)

/-! ## Classifier predicates (`formatter.py` helpers) -/

/-- `_find_title_page_end`: index of the first paragraph whose stripped,
upper-cased text is the contents marker; 0 if there is none. -/
def _find_title_page_end (d : Doc) : Nat :=
  (d.paras.findIdx? (fun p =>
    let t := pyUpperStr (pyStrip (paraText p))
    t = "СОДЕРЖАНИЕ" || t = "ОГЛАВЛЕНИЕ")).getD 0

def mainHeadingSet : List String :=
  ["СОДЕРЖАНИЕ", "ОГЛАВЛЕНИЕ", "ВВЕДЕНИЕ", "ЗАКЛЮЧЕНИЕ",
   "СПИСОК ИСПОЛЬЗОВАННЫХ ИСТОЧНИКОВ", "БИБЛИОГРАФИЧЕСКИЙ СПИСОК",
   "АННОТАЦИЯ", "РЕФЕРАТ", "ПРИЛОЖЕНИЕ", "ПРИЛОЖЕНИЯ"]

/-- Regex `^ГЛАВА\s+\d+` on the upper-cased text. -/
def glavaMatch (l : List Char) : Bool :=
  if ("ГЛАВА".toList).isPrefixOf l then
    let r := l.drop 5
    let k := takeWs r
    decide (1 ≤ k) && (match r.drop k with
      | c :: _ => isAsciiDigit c
      | [] => false)
  else false

/-- `_is_main_heading`. -/
def _is_main_heading (text : String) : Bool :=
  let tu := pyUpperStr (pyStrip text)
  mainHeadingSet.contains tu || glavaMatch tu.toList

/-- `_is_subheading`: regex `^\d+\.\d+` on the stripped text. -/
def _is_subheading (text : String) : Bool :=
  let l := (pyStrip text).toList
  let k := takeDigits l
  decide (1 ≤ k) && (match l.drop k with
    | '.' :: rest => decide (1 ≤ takeDigits rest)
    | _ => false)

def isDash (c : Char) : Bool := c = '-' || c = '–' || c = '—'

/-- Parser for `^(Рисунок)\s*(\d*)\s*[-–—]\s*(.*)$` (IGNORECASE): returns
the matched prefix (original case), the digit group, and the rest after
the dash and following whitespace. -/
def parseFigureCaption (l : List Char) : Option (List Char × List Char × List Char) :=
  if ciStartsWith l ("рисунок".toList) then
    let pfx := l.take 7
    let r1 := l.drop 7
    let r2 := r1.drop (takeWs r1)
    let dg := r2.takeWhile isAsciiDigit
    let r3 := r2.drop dg.length
    match r3.drop (takeWs r3) with
    | c :: rest => if isDash c then some (pfx, dg, rest.drop (takeWs rest)) else none
    | [] => none
  else none

/-- `_is_figure_caption`: regex `^Рисунок\s*\d*\s*[-–—]` (IGNORECASE) on
the stripped text. -/
def _is_figure_caption (text : String) : Bool :=
  (parseFigureCaption (pyStrip text).toList).isSome

/-- `_is_table_caption`: regex `^Таблица\s+\d+\s*[-–—]` (IGNORECASE) on
the stripped text. -/
def _is_table_caption (text : String) : Bool :=
  let l := (pyStrip text).toList
  if ciStartsWith l ("таблица".toList) then
    let r1 := l.drop 7
    let k1 := takeWs r1
    if 1 ≤ k1 then
      let r2 := r1.drop k1
      let dg := takeDigits r2
      if 1 ≤ dg then
        let r3 := r2.drop dg
        match r3.drop (takeWs r3) with
        | c :: _ => isDash c
        | [] => false
      else false
    else false
  else false

/-- `_is_list_item`: the paragraph carries `numPr` metadata. -/
def _is_list_item (p : Para) : Bool := p.numPr

/-- `_has_image`: the paragraph carries an embedded picture or drawing. -/
def _has_image (p : Para) : Bool := p.image

/-! ## Pass 1 of the normalizer: `_fix_multiple_spaces` -/

/-- Regex `' {2,}' → ' '` inside one run: collapse every maximal run of
two-or-more ASCII spaces to one.  `prevSpace` records whether the
previously emitted character was such a collapsed-or-kept space. -/
def collapseGo : Bool → List Char → List Char
  | _, [] => []
  | prevSpace, c :: rest =>
    if c = ' ' then
      if prevSpace then collapseGo true rest
      else ' ' :: collapseGo true rest
    else c :: collapseGo false rest

def collapseSpacesRun (s : String) : String := String.mk (collapseGo false s.toList)

/-- The inter-run rules of `_fix_multiple_spaces`, applied to a run
`curr` given the (already space-collapsed) preceding run `prev`.  The
source iterates from the end, so each `prev` it reads is unmodified by
the inter-run rules. -/
def interRunFix (prev curr : Run) : Run :=
  if prev.text = "" ∨ curr.text = "" then curr
  else
    let t := curr.text
    let t1 := if strEndsWith prev.text " " ∧ strStartsWith t " " then lstripSpaces t else t
    let t2 := if pyStrip t1 = "" ∧ strEndsWith prev.text " " then "" else t1
    { curr with text := t2 }

def _fix_multiple_spaces_para (p : Para) : Para :=
  let runs1 := p.runs.map (fun r => { r with text := collapseSpacesRun r.text })
  match runs1 with
  | [] => { p with runs := [] }
  | r0 :: rest =>
    { p with runs := r0 :: (runs1.zip rest).map (fun pr => interRunFix pr.1 pr.2) }

/-! ## `_fix_dashes` -/

def sNBSP : String := String.mk [NBSP]

/-- The per-run replacement chain of `_fix_dashes`. -/
def fixDashesText (s : String) : String :=
  let s1 := pyReplace "—" "–" s
  let s2 := pyReplace " - " " – " s1
  let s3 := pyReplace (sNBSP ++ "-" ++ sNBSP) " – " s2
  let s4 := pyReplace (sNBSP ++ "- ") " – " s3
  pyReplace (" -" ++ sNBSP) " – " s4

/-- The lone-hyphen-run cases of `_fix_dashes`.  The upward loop mutates
runs in place, so the predecessor each step reads is the already-processed
run; `prev` carries it.  (The source also computes a `next_ok` flag that
its condition never uses, and its `elif text == '- '` / `elif text == ' -'`
branches are unreachable because those texts strip to `-`; both are
reproduced faithfully by omission of any effect.) -/
def dashSpecialGo : Option Run → List Run → List Run
  | _, [] => []
  | prev, r :: rest =>
    let t := r.text
    let r' :=
      if pyStrip t = "-" then
        let prevOk : Bool := match prev with
          | some pr => decide (pr.text ≠ "") && strEndsWith pr.text " "
          | none => false
        if prevOk = true ∨ t = "- " ∨ t = " -" then { r with text := pyReplace "-" "–" t } else r
      else if t = "- " then { r with text := "– " }
      else if t = " -" then { r with text := " –" }
      else r
    r' :: dashSpecialGo (some r') rest

def _fix_dashes_para (p : Para) : Para :=
  let runs1 := p.runs.map (fun r =>
    if r.text = "" then r else { r with text := fixDashesText r.text })
  { p with runs := dashSpecialGo none runs1 }

/-! ## `_fix_colons` -/

def isColonWordChar (c : Char) : Bool := isInitLow c || isInitCap c

/-- One match attempt of `(:\s)([А-ЯA-Z])([а-яa-zА-ЯA-Z]*)` with the
`lowercase_after_colon` replacement: keep the match when the second letter
of the word is also a capital (acronym guard), otherwise lower-case the
first letter.  Either way the match is consumed. -/
def tryColonCap (_ : Option Char) (l : List Char) : Option (Nat × List Char) :=
  match l with
  | ':' :: s :: u :: rest =>
    if isPySpace s ∧ isInitCap u then
      let w := rest.takeWhile isColonWordChar
      let n := 3 + w.length
      match w with
      | c :: _ =>
        if pyIsUpper c then some (n, ':' :: s :: u :: w)
        else some (n, ':' :: s :: pyLowerChar u :: w)
      | [] => some (n, [':', s, pyLowerChar u])
    else none
  | _ => none

/-- The per-run text transform of `_fix_colons`. -/
def fixColonsText (s : String) : String :=
  let s1 := pyReplace " :" ":" s
  let s2 := pyReplace (sNBSP ++ ":") ":" s1
  String.mk (runSub tryColonCap s2.toList)

/-- The cross-run rule of `_fix_colons`: when a run ends with a colon and
the next one starts with a capitalized non-acronym word, lower-case that
word's first letter. -/
def colonCrossFix (curr next : Run) : Run :=
  if curr.text = "" ∨ next.text = "" then next
  else
    let ct := curr.text
    if strEndsWith (pyRstrip ct) ":" ∨ strEndsWith ct ": " then
      let nt := next.text
      let stripped := pyLstrip nt
      match stripped.toList with
      | c :: d :: rest =>
        if pyIsUpper c ∧ ¬ pyIsUpper d = true then
          let lead := nt.toList.takeWhile isPySpace
          { next with text := String.mk (lead ++ pyLowerChar c :: d :: rest) }
        else next
      | _ => next
    else next

/-- The upward cross-run loop: each processed run becomes the `curr` of
the next step. -/
def colonCrossGo (prev : Run) : List Run → List Run
  | [] => []
  | b :: rest =>
    let b' := colonCrossFix prev b
    b' :: colonCrossGo b' rest

def colonCross : List Run → List Run
  | [] => []
  | a :: rest => a :: colonCrossGo a rest

def _fix_colons_para (p : Para) : Para :=
  let runs1 := p.runs.map (fun r =>
    if r.text = "" then r else { r with text := fixColonsText r.text })
  { p with runs := colonCross runs1 }

/-! ## `_fix_quotes` -/

/-- The character set `'""„"\''` of the source: straight double quote,
low-9 quote and apostrophe (U+0022, U+201E, U+0027). -/
def quoteSet (c : Char) : Bool :=
  c = Char.ofNat 34 || c = Char.ofNat 8222 || c = Char.ofNat 39

/-- Characters before which a glyph opens: `' \t\n([«'`. -/
def openerBefore (c : Char) : Bool :=
  c = ' ' || c = '\t' || c = '\n' || c = '(' || c = '[' || c = '«'

/-- The per-character scan of `_fix_quotes.process_text`: each glyph of
`quoteSet` becomes `«` when the previous original character is an opener
(position 0 counts as opening, matching the source's `prev_char = ' '`
default and `or i == 0`), else `»`.  Other characters pass through. -/
def fixQuotesGo : Char → List Char → List Char
  | _, [] => []
  | prev, c :: rest =>
    (if quoteSet c then (if openerBefore prev then '«' else '»') else c)
      :: fixQuotesGo c rest

def fixQuotesText (s : String) : String := String.mk (fixQuotesGo ' ' s.toList)

def _fix_quotes_para (p : Para) : Para :=
  { p with runs := p.runs.map (fun r =>
      if r.text = "" then r else { r with text := fixQuotesText r.text }) }

/-! ## `_fix_non_breaking_spaces`

Seven `re.sub` passes applied to each run's text in the source's order.
Each is realized as a `scanSub` match attempt. -/

/-- `([№§])\s+` → `\1` NBSP. -/
def tryNbspSym (_ : Option Char) (l : List Char) : Option (Nat × List Char) :=
  match l with
  | c :: rest =>
    if c = '№' || c = '§' then
      let k := takeWs rest
      if 1 ≤ k then some (1 + k, [c, NBSP]) else none
    else none
  | [] => none

/-- The alternation `рис|табл|гл|стр|см|пп?|гг?|др|руб|коп|тыс|млн|млрд`
with the optional-letter branches expanded in the engine's try order
(`пп` before `п`, `гг` before `г`). -/
def nbspAbbrevHeads : List (List Char) :=
  ["рис", "табл", "гл", "стр", "см", "пп", "п", "гг", "г",
   "др", "руб", "коп", "тыс", "млн", "млрд"].map String.toList

/-- `\b(рис|табл|гл|стр|см|пп?|гг?|др|руб|коп|тыс|млн|млрд)\.\s+` →
`\1.` NBSP (IGNORECASE; the replacement keeps the matched case). -/
def tryNbspAbbrev (prev : Option Char) (l : List Char) : Option (Nat × List Char) :=
  if (match prev with | some c => pyIsWord c | none => false) then none
  else
    nbspAbbrevHeads.findSome? (fun pat =>
      if ciStartsWith l pat then
        match l.drop pat.length with
        | '.' :: rest2 =>
          let k := takeWs rest2
          if 1 ≤ k then some (pat.length + 1 + k, l.take pat.length ++ ['.', NBSP])
          else none
        | _ => none
      else none)

/-- `([А-ЯA-Z])\.\s+([А-ЯA-Z])\.\s+([А-ЯA-Z])` → `\1.` NBSP `\2.` NBSP `\3`. -/
def tryInitials3 (_ : Option Char) (l : List Char) : Option (Nat × List Char) :=
  match l with
  | a :: '.' :: rest =>
    if isInitCap a then
      let k := takeWs rest
      if 1 ≤ k then
        match rest.drop k with
        | b :: '.' :: rest2 =>
          if isInitCap b then
            let k2 := takeWs rest2
            if 1 ≤ k2 then
              match rest2.drop k2 with
              | d :: _ =>
                if isInitCap d then
                  some (2 + k + 2 + k2 + 1, [a, '.', NBSP, b, '.', NBSP, d])
                else none
              | [] => none
            else none
          else none
        | _ => none
      else none
    else none
  | _ => none

/-- `([А-ЯA-Z])\.\s+([А-ЯA-Z][а-яa-z])` → `\1.` NBSP `\2`. -/
def tryInitials2 (_ : Option Char) (l : List Char) : Option (Nat × List Char) :=
  match l with
  | a :: '.' :: rest =>
    if isInitCap a then
      let k := takeWs rest
      if 1 ≤ k then
        match rest.drop k with
        | b :: d :: _ =>
          if isInitCap b && isInitLow d then some (2 + k + 2, [a, '.', NBSP, b, d])
          else none
        | _ => none
      else none
    else none
  | _ => none

/-- The unit alternation of the source, in its order (case-sensitive). -/
def unitList : List (List Char) :=
  ["кг", "г", "мг", "т", "км", "м", "см", "мм", "л", "мл", "шт", "ч",
   "мин", "сек", "с", "руб", "коп", "%", "°C", "К", "Вт", "кВт", "В",
   "А", "Гц", "байт", "Кб", "Мб", "Гб", "Тб"].map String.toList

/-- `\b` at the position after a matched token: exactly one of
(last matched char, next char) is a word character. -/
def wordBoundaryAfter (lastC : Char) (next : Option Char) : Bool :=
  pyIsWord lastC != (match next with | some c => pyIsWord c | none => false)

/-- `(\d)\s+(units)\b` → `\1` NBSP `\2`.  Alternatives are tried in
order and an alternative is rejected when the trailing `\b` fails
(so `м` loses to `мм` before a word character, and `%` never matches
before a non-word character). -/
def tryUnits (_ : Option Char) (l : List Char) : Option (Nat × List Char) :=
  match l with
  | d :: rest =>
    if isAsciiDigit d then
      let k := takeWs rest
      if 1 ≤ k then
        let after := rest.drop k
        unitList.findSome? (fun u =>
          if u.isPrefixOf after then
            match u.getLast? with
            | some lastC =>
              if wordBoundaryAfter lastC ((after.drop u.length).head?) then
                some (1 + k + u.length, d :: NBSP :: u)
              else none
            | none => none
          else none)
      else none
    else none
  | [] => none

/-- `(\d{4})\s+(г|гг)\.` → `\1` NBSP `\2.` (alternation tries `г` first,
backtracking to `гг` when the dot does not follow). -/
def tryYears (_ : Option Char) (l : List Char) : Option (Nat × List Char) :=
  match l with
  | a :: b :: c :: d :: rest =>
    if isAsciiDigit a && isAsciiDigit b && isAsciiDigit c && isAsciiDigit d then
      let k := takeWs rest
      if 1 ≤ k then
        match rest.drop k with
        | 'г' :: '.' :: _ => some (4 + k + 2, [a, b, c, d, NBSP, 'г', '.'])
        | 'г' :: 'г' :: '.' :: _ => some (4 + k + 3, [a, b, c, d, NBSP, 'г', 'г', '.'])
        | _ => none
      else none
    else none
  | _ => none

def monthList : List (List Char) :=
  ["января", "февраля", "марта", "апреля", "мая", "июня", "июля",
   "августа", "сентября", "октября", "ноября", "декабря"].map String.toList

/-- Helper for `(\d{1,2})\s+(months)` (IGNORECASE): try a digit prefix of
length `n`, then `\s+`, then a month; keep the matched original case. -/
def tryDatesLen (n : Nat) (l : List Char) : Option (Nat × List Char) :=
  let ds := l.take n
  if ds.length = n ∧ ds.all isAsciiDigit then
    let rest := l.drop n
    let k := takeWs rest
    if 1 ≤ k then
      let after := rest.drop k
      monthList.findSome? (fun m =>
        if ciStartsWith after m then some (n + k + m.length, ds ++ NBSP :: after.take m.length)
        else none)
    else none
  else none

/-- `(\d{1,2})\s+(months)`: greedy two digits, backtracking to one. -/
def tryDates (_ : Option Char) (l : List Char) : Option (Nat × List Char) :=
  match tryDatesLen 2 l with
  | some r => some r
  | none => tryDatesLen 1 l

/-- The per-run transform of `_fix_non_breaking_spaces`. -/
def fixNbspText (s : String) : String :=
  let t1 := runSub tryNbspSym s.toList
  let t2 := runSub tryNbspAbbrev t1
  let t3 := runSub tryInitials3 t2
  let t4 := runSub tryInitials2 t3
  let t5 := runSub tryUnits t4
  let t6 := runSub tryYears t5
  String.mk (runSub tryDates t6)

def _fix_non_breaking_spaces_para (p : Para) : Para :=
  { p with runs := p.runs.map (fun r =>
      if r.text = "" then r else { r with text := fixNbspText r.text }) }

/-! ## `_fix_abbreviations` -/

/-- The lookbehind class `(?<![,А-ЯA-Z])` under IGNORECASE: the comma and
all ASCII and А-Я/а-я letters (case-insensitivity makes the ranges match
both cases; Ё/ё are outside А-Я). -/
def abbrevBlockChar (c : Char) : Bool :=
  c = ',' || ('A' ≤ c && c ≤ 'Z') || ('a' ≤ c && c ≤ 'z') ||
  ('А' ≤ c && c ≤ 'Я') || ('а' ≤ c && c ≤ 'я')

/-- Parse `X\.\s*Y\.` (IGNORECASE) where `X`, `Y` are given lowercase
letters; returns the consumed length. -/
def parseDotPair (x y : Char) (l : List Char) : Option Nat :=
  match l with
  | a :: '.' :: rest =>
    if pyLowerChar a = x then
      let k := takeWs rest
      match rest.drop k with
      | b :: '.' :: _ => if pyLowerChar b = y then some (2 + k + 2) else none
      | _ => none
    else none
  | _ => none

/-- `(?<![,А-ЯA-Z])\s+т\.\s*к\.` → ` так как` (IGNORECASE), and the same
scheme for `т.е.`. -/
def tryAbbrevMid (x y : Char) (rep : String) (prev : Option Char) (l : List Char) :
    Option (Nat × List Char) :=
  if (match prev with | some c => abbrevBlockChar c | none => false) then none
  else
    let k := takeWs l
    if 1 ≤ k then
      match parseDotPair x y (l.drop k) with
      | some n => some (k + n, rep.toList)
      | none => none
    else none

/-- `^т\.\s*к\.` → `так как` (IGNORECASE): anchored, so it can only
rewrite a prefix of the run text, once. -/
def subAbbrevStart (x y : Char) (rep : String) (l : List Char) : List Char :=
  match parseDotPair x y l with
  | some n => rep.toList ++ l.drop n
  | none => l

/-- `\bи\s+ABBR` → replacement (IGNORECASE), for `т.д.` / `т.п.` pairs. -/
def tryAbbrevI (x y : Char) (rep : String) (prev : Option Char) (l : List Char) :
    Option (Nat × List Char) :=
  if (match prev with | some c => pyIsWord c | none => false) then none
  else
    match l with
    | c :: rest =>
      if pyLowerChar c = 'и' then
        let k := takeWs rest
        if 1 ≤ k then
          match parseDotPair x y (rest.drop k) with
          | some n => some (1 + k + n, rep.toList)
          | none => none
        else none
      else none
    | [] => none

/-- `\bи\s+др\.` → `и другие` (IGNORECASE). -/
def tryAbbrevIdr (prev : Option Char) (l : List Char) : Option (Nat × List Char) :=
  if (match prev with | some c => pyIsWord c | none => false) then none
  else
    match l with
    | c :: rest =>
      if pyLowerChar c = 'и' then
        let k := takeWs rest
        if 1 ≤ k then
          match rest.drop k with
          | a :: b :: '.' :: _ =>
            if pyLowerChar a = 'д' && pyLowerChar b = 'р' then
              some (1 + k + 3, ("и другие").toList)
            else none
          | _ => none
        else none
      else none
    | [] => none

/-- The per-run transform of `_fix_abbreviations.process_text`:
the five substitutions in the source's order. -/
def fixAbbrevText (s : String) : String :=
  let t1 := runSub (tryAbbrevMid 'т' 'к' " так как") s.toList
  let t2 := subAbbrevStart 'т' 'к' "так как" t1
  let t3 := runSub (tryAbbrevMid 'т' 'е' " то есть") t2
  let t4 := subAbbrevStart 'т' 'е' "то есть" t3
  let t5 := runSub (tryAbbrevI 'т' 'д' "и так далее") t4
  let t6 := runSub (tryAbbrevI 'т' 'п' "и тому подобное") t5
  String.mk (runSub tryAbbrevIdr t6)

def _fix_abbreviations_para (p : Para) : Para :=
  { p with runs := p.runs.map (fun r =>
      if r.text = "" then r else { r with text := fixAbbrevText r.text }) }

/-! ## Style appliers (`_format_*` functions) -/

/-- Set font name and size on every run; optionally set bold. -/
def styleRuns (size : Nat) (bold : Option Bool) (runs : List Run) : List Run :=
  runs.map (fun r =>
    { r with
      fontName := some GOST_FONT_NAME
      sizePt := some size
      bold := match bold with | some b => some b | none => r.bold })

/-- `_format_main_heading`: 16 pt bold, centered, no indent. -/
def _format_main_heading (p : Para) : Para :=
  { p with
    alignment := some Align.center
    firstLineIndentCm100 := some 0
    leftIndentCm100 := some 0
    spaceBeforePt := some 0
    spaceAfterPt := some 0
    lineSpacingX10 := some GOST_LINE_SPACING_X10
    runs := styleRuns 16 (some true) p.runs }

/-- `_format_subheading`: base-size bold, centered, no indent. -/
def _format_subheading (p : Para) : Para :=
  { p with
    alignment := some Align.center
    firstLineIndentCm100 := some 0
    leftIndentCm100 := some 0
    spaceBeforePt := some 0
    spaceAfterPt := some 0
    lineSpacingX10 := some GOST_LINE_SPACING_X10
    runs := styleRuns GOST_FONT_SIZE (some true) p.runs }

/-- `_format_caption`: base size, explicitly non-bold, centered. -/
def _format_caption (p : Para) : Para :=
  { p with
    alignment := some Align.center
    firstLineIndentCm100 := some 0
    leftIndentCm100 := some 0
    spaceBeforePt := some 0
    spaceAfterPt := some 0
    lineSpacingX10 := some GOST_LINE_SPACING_X10
    runs := styleRuns GOST_FONT_SIZE (some false) p.runs }

/-- `_format_list_item`: justified, first-line indent, bold untouched. -/
def _format_list_item (p : Para) : Para :=
  { p with
    alignment := some Align.justify
    leftIndentCm100 := some 0
    firstLineIndentCm100 := some GOST_INDENT_CM100
    spaceBeforePt := some 0
    spaceAfterPt := some 0
    lineSpacingX10 := some GOST_LINE_SPACING_X10
    runs := styleRuns GOST_FONT_SIZE none p.runs }

/-- `_format_regular_paragraph`: justified, first-line indent. -/
def _format_regular_paragraph (p : Para) : Para :=
  { p with
    alignment := some Align.justify
    firstLineIndentCm100 := some GOST_INDENT_CM100
    leftIndentCm100 := some 0
    spaceBeforePt := some 0
    spaceAfterPt := some 0
    lineSpacingX10 := some GOST_LINE_SPACING_X10
    runs := styleRuns GOST_FONT_SIZE none p.runs }

/-- The per-paragraph dispatch of `_format_document_content`. -/
def _format_document_content_para (p : Para) : Para :=
  let text := pyStrip (paraText p)
  if text = "" then p
  else if _is_main_heading text then _format_main_heading p
  else if _is_subheading text then _format_subheading p
  else if _is_figure_caption text || _is_table_caption text then _format_caption p
  else if _is_list_item p then _format_list_item p
  else _format_regular_paragraph p

/-! ## Stage plumbing -/

/-- Indexed map over paragraphs (explicit index recursion). -/
def mapWithIdxGo (f : Nat → Para → Para) : Nat → List Para → List Para
  | _, [] => []
  | i, p :: rest => f i p :: mapWithIdxGo f (i + 1) rest

def mapWithIdx (f : Nat → Para → Para) (l : List Para) : List Para :=
  mapWithIdxGo f 0 l

/-- The `for i, para in enumerate(...): if i < title_end_idx: continue`
pattern: apply `f` to every paragraph at index ≥ `b`. -/
def mapFromIdx (b : Nat) (f : Para → Para) (l : List Para) : List Para :=
  mapWithIdx (fun i p => if i < b then p else f p) l

/-- Indices whose paragraph satisfies an indexed predicate. -/
def idxsWhereGo (pred : Nat → Para → Bool) : Nat → List Para → List Nat
  | _, [] => []
  | i, p :: rest =>
    if pred i p then i :: idxsWhereGo pred (i + 1) rest
    else idxsWhereGo pred (i + 1) rest

def idxsWhere (pred : Nat → Para → Bool) (l : List Para) : List Nat :=
  idxsWhereGo pred 0 l

/-- Apply `f` to every paragraph of every table cell. -/
def mapTables (f : Para → Para) (ts : List Table) : List Table :=
  ts.map (fun t => t.map (fun row => row.map (fun cell => cell.map f)))

def _fix_multiple_spaces (b : Nat) (d : Doc) : Doc :=
  { paras := mapFromIdx b _fix_multiple_spaces_para d.paras
    tables := mapTables _fix_multiple_spaces_para d.tables }

def _fix_dashes (b : Nat) (d : Doc) : Doc :=
  { paras := mapFromIdx b _fix_dashes_para d.paras
    tables := mapTables _fix_dashes_para d.tables }

def _fix_colons (b : Nat) (d : Doc) : Doc :=
  { paras := mapFromIdx b _fix_colons_para d.paras
    tables := mapTables _fix_colons_para d.tables }

def _fix_quotes (b : Nat) (d : Doc) : Doc :=
  { paras := mapFromIdx b _fix_quotes_para d.paras
    tables := mapTables _fix_quotes_para d.tables }

def _fix_non_breaking_spaces (b : Nat) (d : Doc) : Doc :=
  { paras := mapFromIdx b _fix_non_breaking_spaces_para d.paras
    tables := mapTables _fix_non_breaking_spaces_para d.tables }

def _fix_abbreviations (b : Nat) (d : Doc) : Doc :=
  { paras := mapFromIdx b _fix_abbreviations_para d.paras
    tables := mapTables _fix_abbreviations_para d.tables }

/-- `_format_document_content` skips the title page and empty texts;
tables are not touched by this stage. -/
def _format_document_content (b : Nat) (d : Doc) : Doc :=
  { d with paras := mapFromIdx b _format_document_content_para d.paras }

/-- `_fix_list_first_letter`: lower-case the first letter of the first
nonblank run of each in-scope list item, unless the next character is
also a capital.  (Defined in the source but never invoked by
`format_document`.) -/
def _fix_list_first_letter_para (p : Para) : Para :=
  if ¬ _is_list_item p then p
  else if p.runs = [] then p
  else
    match p.runs.findIdx? (fun r => decide (r.text ≠ "") && decide (pyStrip r.text ≠ "")) with
    | none => p
    | some i =>
      let r := p.runs.getD i default
      let t := r.text.toList
      match t.findIdx? pyIsAlpha with
      | none => p
      | some j =>
        let c := t.getD j ' '
        if pyIsUpper c then
          if (match t.drop (j + 1) with | d :: _ => pyIsUpper d | [] => false) then p
          else
            let r' := { r with text := String.mk (t.take j ++ pyLowerChar c :: t.drop (j + 1)) }
            { p with runs := p.runs.set i r' }
        else p

def _fix_list_first_letter (b : Nat) (d : Doc) : Doc :=
  { d with paras := mapFromIdx b _fix_list_first_letter_para d.paras }

/-! ## `_set_paragraph_ending` and `_fix_list_punctuation` -/

/-- The terminal characters `'.;,:!'` that are replaced rather than
appended to. -/
def endingSet (c : Char) : Bool :=
  c = '.' || c = ';' || c = ',' || c = ':' || c = '!'

/-- Index (from the front) of the last run whose text strips nonempty —
the run the source finds by scanning `reversed(paragraph.runs)`. -/
def lastNonblankRunIdx (runs : List Run) : Option Nat :=
  match (runs.reverse.findIdx? (fun r => decide (r.text ≠ "") && decide (pyStrip r.text ≠ ""))) with
  | some k => some (runs.length - 1 - k)
  | none => none

/-- The run appended for hyperlink paragraphs and as the final fallback
(Times New Roman, 14 pt). -/
def endingRun (ending : String) : Run :=
  { text := ending, fontName := some "Times New Roman", sizePt := some 14 }

/-- `_set_paragraph_ending`. -/
def _set_paragraph_ending (ending : String) (p : Para) : Para :=
  let text := pyRstrip (paraText p)
  if text = "" then p
  else if strEndsWith text ending then p
  else if p.hyperlink then { p with runs := p.runs ++ [endingRun ending] }
  else
    match lastNonblankRunIdx p.runs with
    | some i =>
      let r := p.runs.getD i default
      let rt := pyRstrip r.text
      let newT :=
        if rt ≠ "" ∧ endingSet (rt.toList.getLastD ' ') then
          String.mk rt.toList.dropLast ++ ending
        else rt ++ ending
      { p with runs := p.runs.set i { r with text := newT } }
    | none => { p with runs := p.runs ++ [endingRun ending] }

/-- Python `pat in s` on character lists. -/
def containsSub (pat : List Char) : List Char → Bool
  | [] => pat.isEmpty
  | c :: rest => pat.isPrefixOf (c :: rest) || containsSub pat rest

/-- Does the stripped upper-cased text contain a bibliography marker? -/
def hasBibliographyMarker (p : Para) : Bool :=
  let tu := (pyUpperStr (pyStrip (paraText p))).toList
  containsSub ("БИБЛИОГРАФИЧЕСКИЙ".toList) tu || containsSub ("СПИСОК ЛИТЕРАТУРЫ".toList) tu

/-- First paragraph index with a bibliography marker, if any. -/
def bibliographyStart (paras : List Para) : Option Nat :=
  paras.findIdx? hasBibliographyMarker

/-- Python truthiness of `if bibliography_start_idx and i >= ...`: a
marker found at index 0 never causes skipping. -/
def bibSkip (bib : Option Nat) (i : Nat) : Bool :=
  match bib with
  | some k => decide (k ≠ 0) && decide (k ≤ i)
  | none => false

/-- Indices of nonblank list items in scope, skipping the bibliography. -/
def listItemIdxs (b : Nat) (bib : Option Nat) (paras : List Para) : List Nat :=
  idxsWhere (fun i p =>
    decide (b ≤ i) && ! bibSkip bib i &&
    _is_list_item p && decide (pyStrip (paraText p) ≠ "")) paras

/-- Are all paragraphs strictly between indices `a` and `c` blank? -/
def betweenBlank (paras : List Para) (a c : Nat) : Bool :=
  (List.range' (a + 1) (c - a - 1)).all
    (fun j => decide (pyStrip (paraText (paras.getD j emptyPara)) = ""))

/-- The grouping loop of `_fix_list_punctuation`: an item continues the
current group when only blank paragraphs lie between it and the previous
item and the index gap is at most 3. -/
def groupGo (paras : List Para) : List Nat → List (List Nat) → List Nat → List (List Nat)
  | cur, lists, [] => lists ++ [cur]
  | cur, lists, c :: rest =>
    if betweenBlank paras (cur.getLastD 0) c && decide (c - cur.getLastD 0 ≤ 3) then
      groupGo paras (cur ++ [c]) lists rest
    else groupGo paras [c] (lists ++ [cur]) rest

def listGroups (paras : List Para) (items : List Nat) : List (List Nat) :=
  match items with
  | [] => []
  | x :: xs => groupGo paras [x] [] xs

/-- Update the paragraph at index `i`. -/
def setAt (l : List Para) (i : Nat) (f : Para → Para) : List Para :=
  l.set i (f (l.getD i emptyPara))

/-- For a single group: a lone item gets `'.'`; otherwise all but the
last get `';'` and the last gets `'.'`. -/
def applyGroup (doc : List Para) (g : List Nat) : List Para :=
  if g.length < 2 then
    match g with
    | [i] => setAt doc i (_set_paragraph_ending ".")
    | _ => doc
  else
    let doc1 := g.dropLast.foldl (fun d i => setAt d i (_set_paragraph_ending ";")) doc
    setAt doc1 (g.getLastD 0) (_set_paragraph_ending ".")

def _fix_list_punctuation (b : Nat) (d : Doc) : Doc :=
  let bib := bibliographyStart d.paras
  let items := listItemIdxs b bib d.paras
  { d with paras := (listGroups d.paras items).foldl applyGroup d.paras }

/-! ## `_process_page_breaks` -/

def _add_page_break_before (p : Para) : Para := { p with pageBreakBefore := true }

/-- Walk upward from index `j` collecting blank-text paragraphs while
`j ≥ b` (the image content of a paragraph is not consulted). -/
def walkUpBlanks (paras : List Para) (b : Nat) : Nat → List Nat
  | 0 => if b = 0 ∧ pyStrip (paraText (paras.getD 0 emptyPara)) = "" then [0] else []
  | j + 1 =>
    if b ≤ j + 1 ∧ pyStrip (paraText (paras.getD (j + 1) emptyPara)) = "" then
      (j + 1) :: walkUpBlanks paras b j
    else []

/-- Remove the paragraphs whose (original) index is in `s` (the source
deletes from the highest index down, which leaves lower indices intact,
so removal is by original index). -/
def removeIdxsGo (s : List Nat) : Nat → List Para → List Para
  | _, [] => []
  | i, p :: rest =>
    if s.contains i then removeIdxsGo s (i + 1) rest
    else p :: removeIdxsGo s (i + 1) rest

def removeIdxs (s : List Nat) (l : List Para) : List Para := removeIdxsGo s 0 l

/-- Index set of in-scope main headings (nonblank text). -/
def mainHeadingIdxs (b : Nat) (paras : List Para) : List Nat :=
  idxsWhere (fun i p =>
    decide (b ≤ i) && decide (pyStrip (paraText p) ≠ "") &&
    _is_main_heading (pyStrip (paraText p))) paras

def _process_page_breaks (b : Nat) (d : Doc) : Doc :=
  let paras := d.paras
  let toRemove := (mainHeadingIdxs b paras).foldl
    (fun acc h => acc ++ (if h = 0 then [] else walkUpBlanks paras b (h - 1))) []
  let paras1 := removeIdxs toRemove paras
  let paras2 := mapWithIdx (fun i p =>
    if b ≤ i ∧ pyStrip (paraText p) ≠ "" ∧ _is_main_heading (pyStrip (paraText p)) = true then
      _add_page_break_before p
    else p) paras1
  { d with paras := paras2 }

/-! ## `_remove_empty_paragraphs` -/

/-- The collection loop: count consecutive empty (no text, no image)
paragraphs from the boundary on; mark every one past the first. -/
def emptyToRemoveGo (b : Nat) : Nat → Nat → List Para → List Nat
  | _, _, [] => []
  | i, cnt, p :: rest =>
    if i < b then emptyToRemoveGo b (i + 1) cnt rest
    else if pyStrip (paraText p) = "" ∧ _has_image p = false then
      (if 1 < cnt + 1 then [i] else []) ++ emptyToRemoveGo b (i + 1) (cnt + 1) rest
    else emptyToRemoveGo b (i + 1) 0 rest

def emptyToRemove (b : Nat) (paras : List Para) : List Nat :=
  emptyToRemoveGo b 0 0 paras

def _remove_empty_paragraphs (b : Nat) (d : Doc) : Doc :=
  { d with paras := removeIdxs (emptyToRemove b d.paras) d.paras }

/-! ## `_process_figures` -/

/-- `_fix_figure_caption_number`: rewrite the caption's number to
`correct_number` with an en-dash; `paragraph.clear()` plus one new run
(which also removes any embedded content of the old runs). -/
def _fix_figure_caption_number (n : Nat) (p : Para) : Para :=
  match parseFigureCaption (pyStrip (paraText p)).toList with
  | some (pfx, _dg, rest) =>
    let newText := String.mk pfx ++ " " ++ toString n ++ " – " ++ String.mk rest
    { p with
      runs := [{ text := newText, fontName := some GOST_FONT_NAME, sizePt := some GOST_FONT_SIZE }]
      image := false
      hyperlink := false }
  | none => p

/-- `_insert_figure_caption`: the freshly inserted caption paragraph. -/
def insertedFigureCaption (n : Nat) : Para :=
  { runs := [{ text := "Рисунок " ++ toString n ++ " – ",
               fontName := some GOST_FONT_NAME, sizePt := some GOST_FONT_SIZE }]
    alignment := some Align.center
    firstLineIndentCm100 := some 0
    spaceBeforePt := some 0
    spaceAfterPt := some 0
    lineSpacingX10 := some GOST_LINE_SPACING_X10 }

/-- The scan loop of `_process_figures` over the in-scope suffix.  On an
image paragraph whose successor is not a caption, the source inserts the
caption at `i+1` and then visits it on the next iteration; since the
inserted paragraph carries no image, that visit is a no-op and the
caption is emitted directly here.  Fuelled (2·length + 2 always
suffices: each step consumes a paragraph or an inserted caption). -/
def goFigures : Nat → Nat → List Para → List Para
  | 0, _, l => l
  | _ + 1, _, [] => []
  | fuel + 1, n, p :: rest =>
    if _has_image p then
      match rest with
      | [] => [p]
      | q :: rest2 =>
        if _is_figure_caption (pyStrip (paraText q)) then
          p :: goFigures fuel (n + 1) (_fix_figure_caption_number (n + 1) q :: rest2)
        else
          p :: insertedFigureCaption (n + 1) :: goFigures fuel (n + 1) (q :: rest2)
    else p :: goFigures fuel n rest

def _process_figures (b : Nat) (d : Doc) : Doc :=
  { d with paras := d.paras.take b ++ goFigures (2 * d.paras.length + 2) 0 (d.paras.drop b) }

/-! ## `_add_table_captions` -/

/-- Parser for `^[Тт]аблица\s*(\d+)\s*[-–—]\s*(.+)$` (no IGNORECASE):
returns the digit group and the title. -/
def parseTableCaption (l : List Char) : Option (List Char × List Char) :=
  match l with
  | c :: rest =>
    if (c = 'Т' ∨ c = 'т') ∧ ("аблица".toList).isPrefixOf rest then
      let r1 := rest.drop 6
      let r2 := r1.drop (takeWs r1)
      let dg := r2.takeWhile isAsciiDigit
      if dg.length = 0 then none
      else
        let r3 := r2.drop dg.length
        match r3.drop (takeWs r3) with
        | d :: rest2 =>
          if isDash d then
            let title := rest2.drop (takeWs rest2)
            if title = [] then none else some (dg, title)
          else none
        | [] => none
    else none
  | [] => none

def _add_table_captions_para (p : Para) : Para :=
  let text := pyStrip (paraText p)
  if strStartsWith (pyLowerStr text) "таблица" then
    let p1 :=
      match parseTableCaption text.toList with
      | some (dg, title) =>
        let newText := "Таблица " ++ String.mk dg ++ " – " ++ String.mk title
        if newText ≠ text then
          { p with
            runs := [{ text := newText, fontName := some GOST_FONT_NAME,
                       sizePt := some GOST_FONT_SIZE }]
            image := false
            hyperlink := false }
        else p
      | none => p
    { p1 with alignment := some Align.left, firstLineIndentCm100 := some 0 }
  else p

/-- `_add_table_captions` iterates all paragraphs: it takes no
title-boundary argument. -/
def _add_table_captions (d : Doc) : Doc :=
  { d with paras := d.paras.map _add_table_captions_para }

/-! ## `_format_bibliography` and `_format_tables` -/

def bibliographyEntryStyle (p : Para) : Para :=
  { p with
    alignment := some Align.justify
    firstLineIndentCm100 := some 0
    leftIndentCm100 := some 0
    lineSpacingX10 := some GOST_LINE_SPACING_X10
    runs := styleRuns GOST_FONT_SIZE none p.runs }

/-- The state machine of `_format_bibliography` (`in_bibliography`). -/
def bibGo : Bool → List Para → List Para
  | _, [] => []
  | inBib, p :: rest =>
    let text := pyStrip (paraText p)
    let tu := pyUpperStr text
    if hasBibliographyMarker p then p :: bibGo true rest
    else if inBib then
      if strStartsWith tu "ПРИЛОЖЕНИЕ" ∨ strStartsWith tu "ГЛАВА" then p :: bibGo false rest
      else if text ≠ "" ∧ tu ≠ text then bibliographyEntryStyle p :: bibGo true rest
      else p :: bibGo true rest
    else p :: bibGo false rest

/-- `_format_bibliography` iterates all paragraphs: it takes no
title-boundary argument. -/
def _format_bibliography (d : Doc) : Doc :=
  { d with paras := bibGo false d.paras }

def _format_tables (d : Doc) : Doc :=
  { d with tables := mapTables (fun p =>
      { p with
        alignment := some Align.left
        runs := p.runs.map (fun r =>
          { r with fontName := some GOST_FONT_NAME, sizePt := some 12 }) }) d.tables }

/-! ## The pipeline (`format_document`) -/

/-- The stage sequence of `format_document` between loading and saving,
with the title boundary computed once up front. -/
def formatDocumentStages (d : Doc) : Doc :=
  let b := _find_title_page_end d
  let d1 := _process_figures b d
  let d2 := _process_page_breaks b d1
  let d3 := _format_document_content b d2
  let d4 := _fix_list_punctuation b d3
  let d5 := _fix_dashes b d4
  let d6 := _fix_colons b d5
  let d7 := _fix_multiple_spaces b d6
  let d8 := _fix_quotes b d7
  let d9 := _fix_non_breaking_spaces b d8
  let d10 := _format_tables d9
  let d11 := _add_table_captions d10
  let d12 := _fix_abbreviations b d11
  let d13 := _format_bibliography d12
  _remove_empty_paragraphs b d13

/-- The control flow of `format_document`: an existence check before any
stage, the stage chain inside one `try`, and a single `doc.save` on the
all-stages-succeeded path.  The stages are abstracted as a list of
possibly-raising transforms so that the exception paths can be stated;
the happy path instantiates them with the pure stage chain.  The second
component collects the documents saved. -/
def runStages (stages : List (Doc → Except Unit Doc)) (d : Doc) : Except Unit Doc :=
  stages.foldl (fun acc st => acc.bind st) (Except.ok d)

def format_document (inputExists : Bool) (load : Except Unit Doc)
    (stages : List (Doc → Except Unit Doc)) : Bool × List Doc :=
  if inputExists = false then (false, [])
  else
    match load.bind (runStages stages) with
    | Except.ok d => (true, [d])
    | Except.error _ => (false, [])

/-! ## Lemmas: which operations preserve the paragraphs below an index -/

theorem mapWithIdxGo_take (f : Nat → Para → Para) (b : Nat)
    (hf : ∀ i p, i < b → f i p = p) :
    ∀ (l : List Para) (i : Nat), (mapWithIdxGo f i l).take (b - i) = l.take (b - i) := by
  intro l
  induction l with
  | nil => intro i; rfl
  | cons p rest ih =>
    intro i
    by_cases hi : b - i = 0
    · simp [hi]
    · have hib : i < b := by omega
      have hsucc : b - i = (b - (i + 1)) + 1 := by omega
      rw [hsucc]
      show ((f i p :: mapWithIdxGo f (i + 1) rest).take ((b - (i + 1)) + 1)) = _
      rw [List.take_succ_cons, List.take_succ_cons, hf i p hib, ih (i + 1)]

theorem mapFromIdx_take (b : Nat) (f : Para → Para) (l : List Para) :
    (mapFromIdx b f l).take b = l.take b := by
  have h := mapWithIdxGo_take (fun i p => if i < b then p else f p) b
    (fun i p hi => by simp [hi]) l 0
  simpa [mapFromIdx, mapWithIdx] using h

theorem removeIdxsGo_take (s : List Nat) (b : Nat) (hs : ∀ x ∈ s, b ≤ x) :
    ∀ (l : List Para) (i : Nat), (removeIdxsGo s i l).take (b - i) = l.take (b - i) := by
  intro l
  induction l with
  | nil => intro i; rfl
  | cons p rest ih =>
    intro i
    by_cases hc : s.contains i
    · have hmem : i ∈ s := by simpa using hc
      have hbi : b - i = 0 := by have := hs i hmem; omega
      simp [removeIdxsGo, hc, hbi]
    · by_cases hi : b - i = 0
      · simp [hi]
      · have hsucc : b - i = (b - (i + 1)) + 1 := by omega
        rw [hsucc]
        unfold removeIdxsGo
        rw [if_neg (by simpa using hc)]
        rw [List.take_succ_cons, List.take_succ_cons, ih (i + 1)]

theorem removeIdxs_take (s : List Nat) (b : Nat) (l : List Para) (hs : ∀ x ∈ s, b ≤ x) :
    (removeIdxs s l).take b = l.take b := by
  have h := removeIdxsGo_take s b hs l 0
  simpa [removeIdxs] using h

theorem take_set_of_le (x : Para) :
    ∀ (l : List Para) (b i : Nat), b ≤ i → (l.set i x).take b = l.take b := by
  intro l
  induction l with
  | nil => intro b i _; rfl
  | cons a rest ih =>
    intro b i hbi
    cases i with
    | zero =>
      have hb : b = 0 := by omega
      simp [hb]
    | succ j =>
      cases b with
      | zero => simp
      | succ m =>
        show ((a :: rest.set j x).take (m + 1)) = _
        rw [List.take_succ_cons, List.take_succ_cons, ih m j (by omega)]

theorem idxsWhereGo_ge (pred : Nat → Para → Bool) (b : Nat)
    (hp : ∀ i p, pred i p = true → b ≤ i) :
    ∀ (l : List Para) (i : Nat) (x : Nat), x ∈ idxsWhereGo pred i l → b ≤ x := by
  intro l
  induction l with
  | nil => intro i x hx; simp [idxsWhereGo] at hx
  | cons p rest ih =>
    intro i x hx
    unfold idxsWhereGo at hx
    by_cases hc : pred i p = true
    · rw [if_pos hc] at hx
      rcases List.mem_cons.mp hx with h | h
      · rw [h]; exact hp i p hc
      · exact ih (i + 1) x h
    · rw [if_neg hc] at hx
      exact ih (i + 1) x hx

theorem walkUpBlanks_ge (paras : List Para) (b : Nat) :
    ∀ (j : Nat) (x : Nat), x ∈ walkUpBlanks paras b j → b ≤ x := by
  intro j
  induction j with
  | zero =>
    intro x hx
    unfold walkUpBlanks at hx
    split at hx
    · next h =>
      have h1 : x = 0 := List.mem_singleton.mp hx
      have hb : b = 0 := h.1
      omega
    · simp at hx
  | succ j ih =>
    intro x hx
    unfold walkUpBlanks at hx
    split at hx
    · next h =>
      rcases List.mem_cons.mp hx with h1 | h1
      · have hb : b ≤ j + 1 := h.1
        omega
      · exact ih x h1
    · simp at hx

theorem foldl_append_flatten (g : Nat → List Nat) :
    ∀ (hs : List Nat) (init : List Nat),
      hs.foldl (fun acc h => acc ++ g h) init = init ++ (hs.map g).flatten := by
  intro hs
  induction hs with
  | nil => intro init; simp
  | cons h rest ih =>
    intro init
    show rest.foldl (fun acc h => acc ++ g h) (init ++ g h) = _
    rw [ih (init ++ g h)]
    simp

theorem applyEndings_foldl_take (e : String) (b : Nat) :
    ∀ (xs : List Nat) (doc : List Para), (∀ i ∈ xs, b ≤ i) →
      (xs.foldl (fun d i => setAt d i (_set_paragraph_ending e)) doc).take b = doc.take b := by
  intro xs
  induction xs with
  | nil => intro doc _; rfl
  | cons x rest ih =>
    intro doc hx
    show (rest.foldl _ (setAt doc x (_set_paragraph_ending e))).take b = doc.take b
    rw [ih _ (fun i hi => hx i (List.mem_cons_of_mem _ hi))]
    exact take_set_of_le _ doc b x (hx x (List.mem_cons_self _ _))

theorem applyGroup_take (b : Nat) (doc : List Para) (g : List Nat)
    (hg : ∀ i ∈ g, b ≤ i) : (applyGroup doc g).take b = doc.take b := by
  unfold applyGroup
  by_cases hlen : g.length < 2
  · rw [if_pos hlen]
    match g, hg with
    | [], _ => rfl
    | [i], hg =>
      exact take_set_of_le _ doc b i (hg i (List.mem_singleton.mpr rfl))
    | i :: j :: rest, hg => exact absurd hlen (by simp)
  · rw [if_neg hlen]
    have hne : g ≠ [] := by
      intro h; subst h; simp at hlen
    have h1 : ∀ i ∈ g.dropLast, b ≤ i := fun i hi => hg i (List.dropLast_subset g hi)
    have h2 : b ≤ g.getLastD 0 := by
      apply hg
      rw [List.getLastD_eq_getLast?, List.getLast?_eq_getLast g hne]
      exact List.getLast_mem hne
    show (setAt (g.dropLast.foldl (fun d i => setAt d i (_set_paragraph_ending ";")) doc)
      (g.getLastD 0) (_set_paragraph_ending ".")).take b = doc.take b
    unfold setAt
    rw [take_set_of_le _ _ b _ h2]
    exact applyEndings_foldl_take ";" b g.dropLast doc h1

theorem groupGo_mem_ge (paras : List Para) (b : Nat) :
    ∀ (rest cur : List Nat) (lists : List (List Nat)),
      (∀ x ∈ cur, b ≤ x) → (∀ x ∈ rest, b ≤ x) →
      (∀ g ∈ lists, ∀ x ∈ g, b ≤ x) →
      ∀ g ∈ groupGo paras cur lists rest, ∀ x ∈ g, b ≤ x := by
  intro rest
  induction rest with
  | nil =>
    intro cur lists hcur _ hlists g hgmem x hx
    unfold groupGo at hgmem
    rcases List.mem_append.mp hgmem with h | h
    · exact hlists g h x hx
    · have h1 : g = cur := List.mem_singleton.mp h
      exact hcur x (h1 ▸ hx)
  | cons c rrest ih =>
    intro cur lists hcur hrest hlists g hgmem x hx
    unfold groupGo at hgmem
    have hc : b ≤ c := hrest c (List.mem_cons_self _ _)
    have hrest2 : ∀ x ∈ rrest, b ≤ x := fun x hx => hrest x (List.mem_cons_of_mem _ hx)
    split at hgmem
    · refine ih (cur ++ [c]) lists ?_ hrest2 hlists g hgmem x hx
      intro y hy
      rcases List.mem_append.mp hy with h | h
      · exact hcur y h
      · have h1 : y = c := List.mem_singleton.mp h
        exact h1 ▸ hc
    · refine ih [c] (lists ++ [cur]) ?_ hrest2 ?_ g hgmem x hx
      · intro y hy
        have h1 : y = c := List.mem_singleton.mp hy
        exact h1 ▸ hc
      · intro g2 hg2 y hy
        rcases List.mem_append.mp hg2 with h | h
        · exact hlists g2 h y hy
        · have h1 : g2 = cur := List.mem_singleton.mp h
          exact hcur y (h1 ▸ hy)

theorem listGroups_mem_ge (paras : List Para) (b : Nat) (items : List Nat)
    (hitems : ∀ x ∈ items, b ≤ x) :
    ∀ g ∈ listGroups paras items, ∀ x ∈ g, b ≤ x := by
  unfold listGroups
  match items, hitems with
  | [], _ => intro g hg; simp at hg
  | x :: xs, hitems =>
    refine groupGo_mem_ge paras b xs [x] [] ?_ ?_ ?_
    · intro y hy
      have h1 : y = x := List.mem_singleton.mp hy
      exact h1 ▸ hitems x (List.mem_cons_self _ _)
    · intro y hy; exact hitems y (List.mem_cons_of_mem _ hy)
    · intro g hg; simp at hg

theorem groups_foldl_take (b : Nat) :
    ∀ (gs : List (List Nat)) (doc : List Para),
      (∀ g ∈ gs, ∀ x ∈ g, b ≤ x) →
      (gs.foldl applyGroup doc).take b = doc.take b := by
  intro gs
  induction gs with
  | nil => intro doc _; rfl
  | cons g rest ih =>
    intro doc hgs
    show (rest.foldl applyGroup (applyGroup doc g)).take b = doc.take b
    rw [ih _ (fun g2 hg2 => hgs g2 (List.mem_cons_of_mem _ hg2))]
    exact applyGroup_take b doc g (hgs g (List.mem_cons_self _ _))

theorem listItemIdxs_ge (b : Nat) (bib : Option Nat) (paras : List Para) :
    ∀ x ∈ listItemIdxs b bib paras, b ≤ x := by
  intro x hx
  refine idxsWhereGo_ge _ b ?_ paras 0 x hx
  intro i p hp
  have := (Bool.and_eq_true _ _).mp ((Bool.and_eq_true _ _).mp ((Bool.and_eq_true _ _).mp hp).1).1
  exact of_decide_eq_true this.1

theorem mainHeadingIdxs_ge (b : Nat) (paras : List Para) :
    ∀ x ∈ mainHeadingIdxs b paras, b ≤ x := by
  intro x hx
  refine idxsWhereGo_ge _ b ?_ paras 0 x hx
  intro i p hp
  have := (Bool.and_eq_true _ _).mp ((Bool.and_eq_true _ _).mp hp).1
  exact of_decide_eq_true this.1

theorem emptyToRemoveGo_ge (b : Nat) :
    ∀ (l : List Para) (i cnt : Nat) (x : Nat), x ∈ emptyToRemoveGo b i cnt l → b ≤ x := by
  intro l
  induction l with
  | nil => intro i cnt x hx; simp [emptyToRemoveGo] at hx
  | cons p rest ih =>
    intro i cnt x hx
    unfold emptyToRemoveGo at hx
    by_cases hib : i < b
    · rw [if_pos hib] at hx
      exact ih (i + 1) cnt x hx
    · rw [if_neg hib] at hx
      split at hx
      · rcases List.mem_append.mp hx with h | h
        · split at h
          · have h1 : x = i := List.mem_singleton.mp h
            omega
          · simp at h
        · exact ih (i + 1) (cnt + 1) x h
      · exact ih (i + 1) 0 x hx

/-! ## Per-stage boundary preservation -/

theorem process_figures_take (b : Nat) (d : Doc) (hb : b ≤ d.paras.length) :
    (_process_figures b d).paras.take b = d.paras.take b := by
  show (d.paras.take b ++ goFigures (2 * d.paras.length + 2) 0 (d.paras.drop b)).take b
      = d.paras.take b
  rw [List.take_append_eq_append_take, List.take_take]
  simp [Nat.min_self, List.length_take, Nat.min_eq_left hb]

theorem process_page_breaks_take (b : Nat) (d : Doc) :
    (_process_page_breaks b d).paras.take b = d.paras.take b := by
  unfold _process_page_breaks
  have hrem : ∀ x ∈ (mainHeadingIdxs b d.paras).foldl
      (fun acc h => acc ++ (if h = 0 then [] else walkUpBlanks d.paras b (h - 1))) [],
      b ≤ x := by
    intro x hx
    rw [foldl_append_flatten] at hx
    simp only [List.nil_append, List.mem_flatten, List.mem_map] at hx
    obtain ⟨l2, ⟨h, _hh, hl2⟩, hxl2⟩ := hx
    rw [← hl2] at hxl2
    by_cases hz : h = 0
    · rw [if_pos hz] at hxl2; simp at hxl2
    · rw [if_neg hz] at hxl2
      exact walkUpBlanks_ge d.paras b (h - 1) x hxl2
  have h1 : (removeIdxs ((mainHeadingIdxs b d.paras).foldl
      (fun acc h => acc ++ (if h = 0 then [] else walkUpBlanks d.paras b (h - 1))) [])
      d.paras).take b = d.paras.take b :=
    removeIdxs_take _ b _ hrem
  have h2 := mapWithIdxGo_take
    (fun i p => if b ≤ i ∧ pyStrip (paraText p) ≠ "" ∧
        _is_main_heading (pyStrip (paraText p)) = true then _add_page_break_before p else p)
    b (fun i p hi => by
      have hno : ¬ (b ≤ i ∧ pyStrip (paraText p) ≠ "" ∧
          _is_main_heading (pyStrip (paraText p)) = true) := by
        intro hcon
        omega
      simp only [hno, if_false])
    (removeIdxs ((mainHeadingIdxs b d.paras).foldl
      (fun acc h => acc ++ (if h = 0 then [] else walkUpBlanks d.paras b (h - 1))) []) d.paras) 0
  simp only [Nat.sub_zero] at h2
  show (mapWithIdx _ _).take b = d.paras.take b
  rw [mapWithIdx, h2, h1]

theorem fix_list_punctuation_take (b : Nat) (d : Doc) :
    (_fix_list_punctuation b d).paras.take b = d.paras.take b := by
  show ((listGroups d.paras (listItemIdxs b (bibliographyStart d.paras) d.paras)).foldl
      applyGroup d.paras).take b = d.paras.take b
  exact groups_foldl_take b _ d.paras
    (listGroups_mem_ge d.paras b _ (listItemIdxs_ge b _ d.paras))

theorem remove_empty_paragraphs_take (b : Nat) (d : Doc) :
    (_remove_empty_paragraphs b d).paras.take b = d.paras.take b := by
  show (removeIdxs (emptyToRemove b d.paras) d.paras).take b = d.paras.take b
  exact removeIdxs_take _ b _ (fun x hx => emptyToRemoveGo_ge b d.paras 0 0 x hx)

/-! ## Claim C1: title invariance -/

def onerunPara (t : String) : Para := { runs := [{ text := t }] }

def claim1Doc : Doc :=
  { paras := [onerunPara "Таблица 1 - Итоги", onerunPara "СОДЕРЖАНИЕ", onerunPara "текст"] }

/-- C1 counterexample: in `claim1Doc` the title boundary is 1 (the
contents marker is paragraph 1), yet the full pipeline rewrites the text
of paragraph 0 — `_add_table_captions` scans every paragraph, so the
below-boundary table-caption-shaped paragraph is modified. -/
theorem claim1_counterexample :
    _find_title_page_end claim1Doc = 1 ∧
    (docTexts claim1Doc).head? = some "Таблица 1 - Итоги" ∧
    (docTexts (formatDocumentStages claim1Doc)).head? = some "Таблица 1 – Итоги" ∧
    (docTexts (formatDocumentStages claim1Doc)).head? ≠ (docTexts claim1Doc).head? :=
  ⟨rfl, rfl, rfl, by decide⟩

/-- C1 amended: every pipeline stage that receives the title boundary
index leaves every paragraph below it untouched (the first `b`
paragraphs are preserved exactly, in position and content), and the
table-formatting stage never touches the paragraph stream; only
`_add_table_captions` and `_format_bibliography` scan the whole
paragraph list without the boundary. -/
theorem claim1_boundary_stages (d : Doc) (b : Nat) (hb : b ≤ d.paras.length) :
    (_process_figures b d).paras.take b = d.paras.take b ∧
    (_process_page_breaks b d).paras.take b = d.paras.take b ∧
    (_format_document_content b d).paras.take b = d.paras.take b ∧
    (_fix_list_punctuation b d).paras.take b = d.paras.take b ∧
    (_fix_dashes b d).paras.take b = d.paras.take b ∧
    (_fix_colons b d).paras.take b = d.paras.take b ∧
    (_fix_multiple_spaces b d).paras.take b = d.paras.take b ∧
    (_fix_quotes b d).paras.take b = d.paras.take b ∧
    (_fix_non_breaking_spaces b d).paras.take b = d.paras.take b ∧
    (_fix_abbreviations b d).paras.take b = d.paras.take b ∧
    (_fix_list_first_letter b d).paras.take b = d.paras.take b ∧
    (_remove_empty_paragraphs b d).paras.take b = d.paras.take b ∧
    (_format_tables d).paras = d.paras :=
  ⟨process_figures_take b d hb,
   process_page_breaks_take b d,
   mapFromIdx_take b _ d.paras,
   fix_list_punctuation_take b d,
   mapFromIdx_take b _ d.paras,
   mapFromIdx_take b _ d.paras,
   mapFromIdx_take b _ d.paras,
   mapFromIdx_take b _ d.paras,
   mapFromIdx_take b _ d.paras,
   mapFromIdx_take b _ d.paras,
   mapFromIdx_take b _ d.paras,
   remove_empty_paragraphs_take b d,
   rfl⟩

/-- C1 witness: the boundary-respecting stages evaluated on `claim1Doc`
with its computed boundary 1. -/
theorem claim1_witness :
    (1 ≤ claim1Doc.paras.length) ∧
    (_fix_dashes 1 claim1Doc).paras.take 1 = claim1Doc.paras.take 1 ∧
    (_process_page_breaks 1 claim1Doc).paras.take 1 = claim1Doc.paras.take 1 :=
  ⟨by decide,
   (claim1_boundary_stages claim1Doc 1 (by decide)).2.2.2.2.1,
   (claim1_boundary_stages claim1Doc 1 (by decide)).2.1⟩

/-! ## Claim C2: idempotence -/

def claim2Doc : Doc := { paras := [onerunPara "a - - b"] }

/-- C2 counterexample: the pipeline is not idempotent.  The dash pass
replaces a ` - ` occurrence and resumes scanning after the replacement,
so the overlapping second ` - ` of `a - - b` survives the first run and
is converted only by the second run. -/
theorem claim2_counterexample :
    docTexts (formatDocumentStages claim2Doc) = ["a – - b"] ∧
    docTexts (formatDocumentStages (formatDocumentStages claim2Doc)) = ["a – – b"] ∧
    formatDocumentStages (formatDocumentStages claim2Doc) ≠ formatDocumentStages claim2Doc :=
  ⟨rfl, rfl, by decide⟩

theorem collapseGo_cons_ne (c : Char) (rest : List Char) (b : Bool) (hc : ¬ c = ' ') :
    collapseGo b (c :: rest) = c :: collapseGo false rest := by
  simp only [collapseGo]
  rw [if_neg hc]

theorem collapseGo_idem (s : List Char) :
    ∀ b, collapseGo b (collapseGo b s) = collapseGo b s := by
  induction s with
  | nil => intro b; rfl
  | cons c rest ih =>
    intro b
    by_cases hc : c = ' '
    · subst hc
      cases b with
      | true =>
        show collapseGo true (collapseGo true rest) = collapseGo true rest
        exact ih true
      | false =>
        show collapseGo false (' ' :: collapseGo true rest) = ' ' :: collapseGo true rest
        show ' ' :: collapseGo true (collapseGo true rest) = _
        rw [ih true]
    · rw [collapseGo_cons_ne c rest b hc, collapseGo_cons_ne c _ b hc, ih false]

theorem collapseSpacesRun_idem (s : String) :
    collapseSpacesRun (collapseSpacesRun s) = collapseSpacesRun s := by
  show String.mk (collapseGo false (String.mk (collapseGo false s.toList)).toList) = _
  show String.mk (collapseGo false (collapseGo false s.toList)) = _
  rw [collapseGo_idem]
  rfl

theorem fixQuotesGo_no_quote (s : List Char) :
    ∀ (p : Char) (c : Char), c ∈ fixQuotesGo p s → quoteSet c = false := by
  induction s with
  | nil => intro p c hc; simp [fixQuotesGo] at hc
  | cons a rest ih =>
    intro p c hc
    unfold fixQuotesGo at hc
    rcases List.mem_cons.mp hc with h | h
    · rw [h]
      by_cases hq : quoteSet a = true
      · rw [if_pos hq]
        by_cases ho : openerBefore p = true
        · rw [if_pos ho]; decide
        · rw [if_neg ho]; decide
      · rw [if_neg hq]
        exact Bool.eq_false_iff.mpr (fun habs => hq habs)
    · exact ih a c h

theorem fixQuotesGo_id_of_no_quote (s : List Char) :
    ∀ (p : Char), (∀ c ∈ s, quoteSet c = false) → fixQuotesGo p s = s := by
  induction s with
  | nil => intro p _; rfl
  | cons a rest ih =>
    intro p hs
    unfold fixQuotesGo
    rw [if_neg, ih a (fun c hc => hs c (List.mem_cons_of_mem _ hc))]
    rw [hs a (List.mem_cons_self _ _)]
    simp

theorem fixQuotesText_idem (s : String) :
    fixQuotesText (fixQuotesText s) = fixQuotesText s := by
  show String.mk (fixQuotesGo ' ' (String.mk (fixQuotesGo ' ' s.toList)).toList) = _
  show String.mk (fixQuotesGo ' ' (fixQuotesGo ' ' s.toList)) = _
  rw [fixQuotesGo_id_of_no_quote _ ' ' (fun c hc => fixQuotesGo_no_quote _ ' ' c hc)]
  rfl

/-- C2 amended: the full pipeline and the dash pass are not idempotent
(see the counterexample); of the normalizer passes, space collapse and
quote unification are idempotent on any run text. -/
theorem claim2_passes_idempotent :
    (∀ s : String, collapseSpacesRun (collapseSpacesRun s) = collapseSpacesRun s) ∧
    (∀ s : String, fixQuotesText (fixQuotesText s) = fixQuotesText s) :=
  ⟨collapseSpacesRun_idem, fixQuotesText_idem⟩

/-! ## Claim C3: pass order and list decapitalization -/

def claim3Doc : Doc := { paras := [{ runs := [{ text := "Первый пункт" }], numPr := true }] }

/-- C3 counterexample: `claim3Doc` is a single ListItem whose first
alphabetic character is an uppercase `П` followed by a lowercase letter,
yet after the full pipeline the letter is still uppercase —
`format_document` never invokes `_fix_list_first_letter`. -/
theorem claim3_counterexample :
    docTexts (formatDocumentStages claim3Doc) = ["Первый пункт."] ∧
    docTexts (formatDocumentStages claim3Doc) ≠ ["первый пункт."] ∧
    (((docTexts (formatDocumentStages claim3Doc)).headD "").toList.head? = some 'П' ∧
      pyIsUpper 'П' = true) :=
  ⟨rfl, by decide, by decide⟩

theorem alpha_not_space (c : Char) (h : pyIsAlpha c = true) : isPySpace c = false := by
  by_contra hns
  have h1 : isPySpace c = true := by simpa using hns
  unfold isPySpace at h1
  simp only [Bool.or_eq_true, decide_eq_true_eq] at h1
  rcases h1 with ((((((h2 | h2) | h2) | h2) | h2) | h2) | h2) <;>
    rw [h2] at h <;> exact absurd h (by decide)

theorem dropWhile_append_singleton (c : Char) (hc : isPySpace c = false) :
    ∀ (l : List Char), (l ++ [c]).dropWhile isPySpace ≠ [] := by
  intro l
  induction l with
  | nil =>
    show ([c].dropWhile isPySpace) ≠ []
    rw [List.dropWhile_cons]
    simp [hc]
  | cons a rest ih =>
    show (((a :: rest) ++ [c]).dropWhile isPySpace) ≠ []
    rw [List.cons_append, List.dropWhile_cons]
    by_cases ha : isPySpace a = true
    · simp only [ha, if_true]
      exact ih
    · simp only [Bool.not_eq_true] at ha
      simp [ha]

theorem strip_cons_alpha_ne (c : Char) (l : List Char) (hc : pyIsAlpha c = true) :
    pyStrip (String.mk (c :: l)) ≠ "" := by
  have hcs : isPySpace c = false := alpha_not_space c hc
  intro habs
  have h2 : pyStripList (c :: l) = [] := by
    have := congrArg String.toList habs
    simpa [pyStrip] using this
  unfold pyStripList at h2
  rw [List.dropWhile_cons] at h2
  simp only [hcs] at h2
  rw [if_neg (by simp)] at h2
  have h3 : ((c :: l).reverse.dropWhile isPySpace).reverse = [] := h2
  have h4 : (c :: l).reverse.dropWhile isPySpace = [] := by
    simpa using congrArg List.reverse h3
  have h5 : (l.reverse ++ [c]).dropWhile isPySpace = [] := by
    simpa using h4
  exact dropWhile_append_singleton c hcs l.reverse h5

/-- C3 amended: the list-decapitalization function, had it been invoked,
lower-cases the first letter of a single-run list item whose first
character is an uppercase letter not followed by another uppercase
letter; `format_document` never calls it (its stage order is figures,
page breaks, styling, list punctuation, dashes, colons, spaces, quotes,
non-breaking spaces, tables, table captions, abbreviations,
bibliography, blank pruning). -/
theorem claim3_decap_function (c : Char) (restT : List Char)
    (halpha : pyIsAlpha c = true) (hupper : pyIsUpper c = true)
    (hnext : ∀ d, restT.head? = some d → pyIsUpper d = false) :
    _fix_list_first_letter 0
        { paras := [{ runs := [{ text := String.mk (c :: restT) }], numPr := true }] } =
      { paras := [{ runs := [{ text := String.mk (pyLowerChar c :: restT) }], numPr := true }] } := by
  have hne : (String.mk (c :: restT) : String) ≠ "" := by
    intro habs
    have h0 := congrArg String.toList habs
    simp at h0
  have hstrip : pyStrip (String.mk (c :: restT)) ≠ "" := strip_cons_alpha_ne c restT halpha
  have hfind : ([({ text := String.mk (c :: restT) } : Run)].findIdx?
      (fun r => decide (r.text ≠ "") && decide (pyStrip r.text ≠ ""))) = some 0 := by
    rw [List.findIdx?_cons]
    simp [hne, hstrip]
  have hfind2 : (List.findIdx? pyIsAlpha (c :: restT)) = some 0 := by
    rw [List.findIdx?_cons]
    simp [halpha]
  have hpara : _fix_list_first_letter_para
      { runs := [{ text := String.mk (c :: restT) }], numPr := true } =
      { runs := [{ text := String.mk (pyLowerChar c :: restT) }], numPr := true } := by
    simp only [_fix_list_first_letter_para, _is_list_item, Bool.not_true, String.toList,
      hfind, hfind2, hne, hstrip, hupper, List.getD, List.get?, Option.getD_some,
      List.take, List.drop, if_true, if_false, Bool.false_eq_true, ite_false, ite_true]
    rw [if_neg (by simp)]
    simp
    intro habs
    cases restT with
    | nil => exact absurd habs (by simp)
    | cons d r2 =>
      have hf := hnext d rfl
      have habs2 : pyIsUpper d = true := habs
      rw [hf] at habs2
      exact absurd habs2 (by simp)
  show Doc.mk (mapWithIdxGo (fun i p => if i < 0 then p else _fix_list_first_letter_para p) 0
    [{ runs := [{ text := String.mk (c :: restT) }], numPr := true }]) [] = _
  unfold mapWithIdxGo mapWithIdxGo
  rw [if_neg (by omega), hpara]

/-- C3 witness: the decapitalization function on a concrete list item. -/
theorem claim3_witness :
    _fix_list_first_letter 0
        { paras := [{ runs := [{ text := "Первый пункт" }], numPr := true }] } =
      { paras := [{ runs := [{ text := "первый пункт" }], numPr := true }] } := by
  have h := claim3_decap_function 'П' ("ервый пункт".toList) (by decide) (by decide)
    (fun d hd => by
      have hde : 'е' = d := Option.some.inj hd
      rw [← hde]
      decide)
  exact h

def listItemPara (t : String) : Para := { runs := [{ text := t }], numPr := true }

def claim4Run (k : Nat) : Doc :=
  { paras := [listItemPara "первый пункт"] ++ List.replicate k emptyPara
      ++ [listItemPara "второй пункт"] }

def claim4Doc : Doc := claim4Run 3

/-- C4 counterexample: two list items separated by three blank
paragraphs (index gap 4) form, per the claim, one run of N = 2 whose
first item must end with a semicolon; the code's grouping bounds the gap
at 3, so both items are treated as singleton runs and end with periods
(the pipeline's blank pruning then collapses the blanks to one). -/
theorem claim4_counterexample :
    docTexts (formatDocumentStages claim4Doc) = ["первый пункт.", "", "второй пункт."] ∧
    strEndsWith "первый пункт." ";" = false ∧
    (claim4Doc.paras.filter (fun p => decide (pyStrip (paraText p) ≠ ""))).all _is_list_item = true :=
  ⟨rfl, by decide, by decide⟩

/-! Supporting lemmas: a maximal run of N adjacent list items is a
single group and receives semicolons then a final period. -/

theorem findIdx?_replicate_none (p : Para) (pred : Para → Bool) (hp : pred p = false) :
    ∀ m, (List.replicate m p).findIdx? pred = none := by
  intro m
  induction m with
  | zero => rfl
  | succ k ih =>
    rw [List.replicate_succ, List.findIdx?_cons, hp]
    simp [ih]

theorem idxsWhereGo_all_true (pred : Nat → Para → Bool) (p : Para)
    (hp : ∀ j, pred j p = true) :
    ∀ (m i : Nat), idxsWhereGo pred i (List.replicate m p) = List.range' i m := by
  intro m
  induction m with
  | zero => intro i; rfl
  | succ k ih =>
    intro i
    rw [List.replicate_succ]
    unfold idxsWhereGo
    rw [if_pos (hp i), ih (i + 1)]
    rfl

theorem getLastD_range' : ∀ (n s d : Nat), (List.range' s (n + 1)).getLastD d = s + n := by
  intro n
  induction n with
  | zero => intro s d; rfl
  | succ k ih =>
    intro s d
    show ((s :: List.range' (s + 1) (k + 1)).getLastD d) = s + (k + 1)
    rw [List.getLastD_cons, ih (s + 1) s]
    omega

theorem dropLast_range' : ∀ (n s : Nat), (List.range' s (n + 1)).dropLast = List.range' s n := by
  intro n
  induction n with
  | zero => intro s; rfl
  | succ k ih =>
    intro s
    show ((s :: List.range' (s + 1) (k + 1)).dropLast) = s :: List.range' (s + 1) k
    rw [List.dropLast_cons_of_ne_nil (by simp [List.range'])]
    rw [ih (s + 1)]

theorem betweenBlank_adjacent (paras : List Para) (k : Nat) :
    betweenBlank paras k (k + 1) = true := by
  unfold betweenBlank
  have h : k + 1 - k - 1 = 0 := by omega
  rw [h]
  rfl

theorem groupGo_range (paras : List Para) :
    ∀ (n k : Nat) (cur : List Nat) (lists : List (List Nat)),
      cur.getLastD 0 = k →
      groupGo paras cur lists (List.range' (k + 1) n) = lists ++ [cur ++ List.range' (k + 1) n] := by
  intro n
  induction n with
  | zero =>
    intro k cur lists _
    show lists ++ [cur] = lists ++ [cur ++ []]
    simp
  | succ m ih =>
    intro k cur lists hlast
    show groupGo paras cur lists ((k + 1) :: List.range' (k + 2) m) = _
    unfold groupGo
    rw [hlast]
    rw [if_pos (by
      rw [betweenBlank_adjacent]
      simp only [Bool.true_and]
      exact decide_eq_true (by omega))]
    rw [ih (k + 1) (cur ++ [k + 1]) lists (by simp)]
    simp only [List.append_assoc, List.singleton_append]
    rw [List.range'_succ]

theorem listGroups_range (paras : List Para) (m : Nat) :
    listGroups paras (List.range' 0 (m + 1)) = [List.range' 0 (m + 1)] := by
  show groupGo paras [0] [] (List.range' 1 m) = _
  have h := groupGo_range paras m 0 [0] [] rfl
  rw [show List.range' (0 + 1) m = List.range' 1 m from rfl] at h
  rw [h]
  rfl

theorem replicate_append_getD (k : Nat) (x y : Para) (t : List Para) :
    (List.replicate k x ++ y :: t).getD k emptyPara = y := by
  induction k with
  | zero => rfl
  | succ j ih =>
    rw [List.replicate_succ]
    show ((x :: (List.replicate j x ++ y :: t)).getD (j + 1) emptyPara) = y
    rw [List.getD_cons_succ]
    exact ih

theorem replicate_append_set (k : Nat) (x y z : Para) (t : List Para) :
    (List.replicate k x ++ y :: t).set k z = List.replicate k x ++ z :: t := by
  induction k with
  | zero => rfl
  | succ j ih =>
    rw [List.replicate_succ]
    show ((x :: (List.replicate j x ++ y :: t)).set (j + 1) z) = _
    rw [List.set_cons_succ, ih]
    rfl

theorem foldl_set_range (f : Para → Para) (item : Para) :
    ∀ (n k : Nat) (t : List Para),
      (List.range' k n).foldl (fun d i => setAt d i f)
          (List.replicate k (f item) ++ (List.replicate n item ++ t))
        = List.replicate k (f item) ++ (List.replicate n (f item) ++ t) := by
  intro n
  induction n with
  | zero => intro k t; rfl
  | succ m ih =>
    intro k t
    show (List.range' (k + 1) m).foldl (fun d i => setAt d i f)
        (setAt (List.replicate k (f item) ++ (List.replicate (m + 1) item ++ t)) k f) = _
    have hset : setAt (List.replicate k (f item) ++ (List.replicate (m + 1) item ++ t)) k f
        = List.replicate (k + 1) (f item) ++ (List.replicate m item ++ t) := by
      rw [List.replicate_succ]
      show setAt (List.replicate k (f item) ++ (item :: (List.replicate m item ++ t))) k f = _
      unfold setAt
      rw [replicate_append_getD, replicate_append_set]
      rw [List.replicate_succ' ]
      simp
    rw [hset, ih (k + 1) t]
    rw [List.replicate_succ' k (f item), List.replicate_succ]
    simp

/-- The list-punctuation stage on a run of N = n+2 adjacent items: the
first n+1 items end with a semicolon, the last with a period. -/
theorem fix_list_punctuation_run_general (n : Nat) :
    docTexts (_fix_list_punctuation 0 { paras := List.replicate (n + 2) (listItemPara "пункт") }) =
      List.replicate (n + 1) "пункт;" ++ ["пункт."] := by
  set item := listItemPara "пункт" with hitem
  have hbib : bibliographyStart (List.replicate (n + 2) item) = none :=
    findIdx?_replicate_none item hasBibliographyMarker (by decide) (n + 2)
  have hp : ∀ j, (fun i p => decide (0 ≤ i) && ! bibSkip none i &&
      _is_list_item p && decide (pyStrip (paraText p) ≠ "")) j item = true := by
    intro j
    show (decide (0 ≤ j) && ! bibSkip none j && _is_list_item item &&
      decide (pyStrip (paraText item) ≠ "")) = true
    rw [decide_eq_true (Nat.zero_le j)]
    rfl
  have hitems : listItemIdxs 0 none (List.replicate (n + 2) item) = List.range' 0 (n + 2) := by
    unfold listItemIdxs idxsWhere
    exact idxsWhereGo_all_true _ item hp (n + 2) 0
  have hgroups : listGroups (List.replicate (n + 2) item) (List.range' 0 (n + 2))
      = [List.range' 0 (n + 2)] := listGroups_range _ (n + 1)
  have hsemi : _set_paragraph_ending ";" item = listItemPara "пункт;" := rfl
  have hdot : _set_paragraph_ending "." item = listItemPara "пункт." := rfl
  have happly : applyGroup (List.replicate (n + 2) item) (List.range' 0 (n + 2))
      = List.replicate (n + 1) (listItemPara "пункт;") ++ [listItemPara "пункт."] := by
    unfold applyGroup
    rw [if_neg (by rw [List.length_range']; omega)]
    rw [dropLast_range' (n + 1) 0, getLastD_range' (n + 1) 0 0]
    have hsplit : List.replicate (n + 2) item
        = List.replicate 0 (_set_paragraph_ending ";" item)
          ++ (List.replicate (n + 1) item ++ [item]) := by
      rw [List.replicate_succ' (n + 1) item]
      rfl
    rw [hsplit, foldl_set_range (_set_paragraph_ending ";") item (n + 1) 0 [item]]
    show setAt (List.replicate (n + 1) (_set_paragraph_ending ";" item) ++ item :: [])
      (0 + (n + 1)) (_set_paragraph_ending ".") = _
    rw [show (0 + (n + 1)) = n + 1 from by omega]
    unfold setAt
    rw [replicate_append_getD (n + 1) _ item [], replicate_append_set (n + 1) _ item _ []]
    rw [hsemi, hdot]
  have hfinal : _fix_list_punctuation 0 { paras := List.replicate (n + 2) item }
      = { paras := List.replicate (n + 1) (listItemPara "пункт;") ++ [listItemPara "пункт."] } := by
    simp only [_fix_list_punctuation]
    rw [hbib, hitems, hgroups]
    simp only [List.foldl_cons, List.foldl_nil]
    rw [happly]
  rw [hfinal]
  show (List.replicate (n + 1) (listItemPara "пункт;") ++ [listItemPara "пункт."]).map paraText = _
  rw [List.map_append, List.map_replicate]
  rfl

/-- C4 amended: consecutive ListItem paragraphs separated only by blank
paragraphs belong to the same run only when the index gap is at most 3
(at most two intervening blanks).  Under that bound, a run of N ≥ 2
items gets `';'` on items 1..N-1 and `'.'` on item N; a singleton run
ends `'.'`; an existing terminal character from the replacement set is
replaced rather than appended to (`'третий пункт!'` becomes
`'третий пункт.'`). -/
theorem claim4_list_punctuation :
    (∀ n : Nat, docTexts (_fix_list_punctuation 0
        { paras := List.replicate (n + 2) (listItemPara "пункт") }) =
      List.replicate (n + 1) "пункт;" ++ ["пункт."]) ∧
    (∀ k : Nat, k ≤ 2 →
      docTexts (formatDocumentStages (claim4Run k)) =
        ["первый пункт;"] ++ List.replicate (min k 1) "" ++ ["второй пункт."]) ∧
    docTexts (formatDocumentStages { paras := [listItemPara "первый пункт"] })
      = ["первый пункт."] ∧
    docTexts (formatDocumentStages { paras := [listItemPara "третий пункт!"] })
      = ["третий пункт."] := by
  refine ⟨fix_list_punctuation_run_general, ?_, rfl, rfl⟩
  intro k hk
  interval_cases k
  · rfl
  · rfl
  · rfl

/-- C4 witness: a five-item adjacent run and the two-item run with the
maximal allowed blank gap. -/
theorem claim4_witness :
    docTexts (_fix_list_punctuation 0
        { paras := List.replicate 5 (listItemPara "пункт") }) =
      List.replicate 4 "пункт;" ++ ["пункт."] ∧
    docTexts (formatDocumentStages (claim4Run 2)) =
      ["первый пункт;"] ++ List.replicate (min 2 1) "" ++ ["второй пункт."] :=
  ⟨claim4_list_punctuation.1 3, claim4_list_punctuation.2.1 2 (by decide)⟩

/-! ## Claim C5: page-break placement -/

def claim5Doc : Doc := { paras := [{ image := true }, onerunPara "ВВЕДЕНИЕ"] }

/-- C5 counterexample: a text-empty paragraph that carries an image sits
directly above the main heading `ВВЕДЕНИЕ`; the page-break stage deletes
it anyway — its blank test looks only at the text, never at images. -/
theorem claim5_counterexample :
    (claim5Doc.paras.getD 0 emptyPara).image = true ∧
    pyStrip (paraText (claim5Doc.paras.getD 0 emptyPara)) = "" ∧
    _find_title_page_end claim5Doc = 0 ∧
    (_process_page_breaks (_find_title_page_end claim5Doc) claim5Doc).paras.map paraText
      = ["ВВЕДЕНИЕ"] ∧
    ((_process_page_breaks (_find_title_page_end claim5Doc) claim5Doc).paras.any
      (fun p => p.image)) = false :=
  ⟨rfl, rfl, rfl, rfl, by decide⟩

/-- C5 amended: before each in-scope main heading the page-break stage
deletes every immediately preceding paragraph whose text is empty,
regardless of any embedded image, and then sets page-break-before on
the heading. -/
theorem claim5_blank_deletion (p h : Para)
    (hblank : pyStrip (paraText p) = "")
    (hhead : pyStrip (paraText h) ≠ "")
    (hmain : _is_main_heading (pyStrip (paraText h)) = true) :
    _process_page_breaks 0 { paras := [p, h] } =
      { paras := [_add_page_break_before h] } := by
  have hIdx : mainHeadingIdxs 0 [p, h] = [1] := by
    simp [mainHeadingIdxs, idxsWhere, idxsWhereGo, hblank, hhead, hmain]
  have hwalk : walkUpBlanks [p, h] 0 0 = [0] := by
    unfold walkUpBlanks
    rw [if_pos ⟨rfl, by simpa using hblank⟩]
  have hrem : removeIdxs [0] [p, h] = [h] := by
    unfold removeIdxs removeIdxsGo removeIdxsGo removeIdxsGo
    norm_num
  simp only [_process_page_breaks]
  rw [hIdx]
  simp only [List.foldl_cons, List.foldl_nil, List.nil_append]
  rw [if_neg (by omega)]
  rw [hwalk, hrem]
  simp only [mapWithIdx, mapWithIdxGo]
  rw [if_pos ⟨by omega, hhead, hmain⟩]

/-- C5 witness: the deleted blank paragraph carries an image. -/
theorem claim5_witness :
    _process_page_breaks 0 { paras := [{ image := true }, onerunPara "ВВЕДЕНИЕ"] } =
      { paras := [_add_page_break_before (onerunPara "ВВЕДЕНИЕ")] } :=
  claim5_blank_deletion { image := true } (onerunPara "ВВЕДЕНИЕ") rfl (by decide) (by decide)

/-! ## Claim C6: quote unification -/

/-- C6 counterexample: `a"b"` has an even number of quote glyphs, yet the
pass produces `a»b»` — no opening guillemet at all.  Decisions are purely
local (previous character), not driven by a paragraph-wide open flag. -/
theorem claim6_counterexample :
    fixQuotesText "a\"b\"" = "a»b»" ∧
    (("a\"b\"").toList.filter quoteSet).length = 2 ∧
    (("a\"b\"").toList.filter quoteSet).length % 2 = 0 ∧
    ("a»b»").toList.count '«' = 0 ∧
    ("a»b»").toList.count '»' = 2 :=
  ⟨rfl, rfl, rfl, by decide, by decide⟩

theorem fixQuotesGo_length (s : List Char) :
    ∀ prev, (fixQuotesGo prev s).length = s.length := by
  induction s with
  | nil => intro prev; rfl
  | cons a rest ih =>
    intro prev
    show (fixQuotesGo prev (a :: rest)).length = rest.length + 1
    unfold fixQuotesGo
    simp [ih a]

theorem fixQuotesGo_getD (s : List Char) :
    ∀ (prev : Char) (i : Nat), i < s.length →
      (fixQuotesGo prev s).getD i ' ' =
        (if quoteSet (s.getD i ' ') = true then
          (if openerBefore (if i = 0 then prev else s.getD (i - 1) ' ') = true then '«' else '»')
         else s.getD i ' ') := by
  induction s with
  | nil => intro prev i hi; simp at hi
  | cons a rest ih =>
    intro prev i hi
    cases i with
    | zero =>
      show ((if quoteSet a then (if openerBefore prev then '«' else '»') else a)
        :: fixQuotesGo a rest).getD 0 ' ' = _
      rw [List.getD_cons_zero]
      simp
    | succ j =>
      show ((if quoteSet a then (if openerBefore prev then '«' else '»') else a)
        :: fixQuotesGo a rest).getD (j + 1) ' ' = _
      rw [List.getD_cons_succ]
      have hj : j < rest.length := by
        simp at hi
        omega
      rw [ih a j hj]
      rcases Nat.eq_zero_or_pos j with hj0 | hjp
      · subst hj0
        simp [List.getD_cons_zero, List.getD_cons_succ]
      · have hne : ¬ (j + 1 = 0) := by omega
        have hne2 : ¬ (j = 0) := by omega
        simp only [hne, hne2, if_false]
        have harith : j + 1 - 1 = (j - 1) + 1 := by omega
        rw [List.getD_cons_succ, harith, List.getD_cons_succ]

/-- C6 amended: each quote glyph is decided purely by the character
immediately before it in the same run (run start counts as an opening
position); there is no cross-run or whole-paragraph state, the pass is
total (an odd glyph count never raises), and an even glyph count need
not produce balanced guillemets. -/
theorem claim6_local_context (s : List Char) (i : Nat) (hi : i < s.length) :
    (fixQuotesText (String.mk s)).toList.length = s.length ∧
    (fixQuotesText (String.mk s)).toList.getD i ' ' =
      (if quoteSet (s.getD i ' ') = true then
        (if openerBefore (if i = 0 then ' ' else s.getD (i - 1) ' ') = true then '«' else '»')
       else s.getD i ' ') := by
  constructor
  · show (fixQuotesGo ' ' s).length = s.length
    exact fixQuotesGo_length s ' '
  · show (fixQuotesGo ' ' s).getD i ' ' = _
    exact fixQuotesGo_getD s ' ' i hi

/-- C6 witness: the second glyph of `a"b"` is closed by its preceding
`b` even though the total count is even. -/
theorem claim6_witness :
    (3 < ("a\"b\"").toList.length) ∧
    (fixQuotesText (String.mk ("a\"b\"").toList)).toList.getD 3 ' ' = '»' := by
  refine ⟨by decide, ?_⟩
  have h := (claim6_local_context ("a\"b\"").toList 3 (by decide)).2
  rw [h]
  decide

def claim7LastDoc : Doc := { paras := [{ image := true }] }

def claim7CapDoc : Doc := { paras := [{ image := true }, onerunPara "Рисунок 5 - старое"] }

def claim7InsDoc : Doc := { paras := [{ image := true }, onerunPara "некоторый текст"] }

/-! ## Claim C7: figure caption reconciliation -/

/-- C7 counterexample: an image-bearing paragraph that is the last
paragraph of the document gets no caption at all — the stage only acts
when a following paragraph exists. -/
theorem claim7_counterexample :
    _has_image (claim7LastDoc.paras.getD 0 emptyPara) = true ∧
    _process_figures (_find_title_page_end claim7LastDoc) claim7LastDoc = claim7LastDoc ∧
    (formatDocumentStages claim7LastDoc).paras.length = 1 :=
  ⟨rfl, rfl, rfl⟩

/-- C7 amended: an existing caption after the first image is renumbered
to 1 with an en-dash regardless of its prior number (`Рисунок 5 -
старое` becomes `Рисунок 1 – старое`); when the next paragraph is not a
caption and exists, `Рисунок 1 – ` is inserted right after the image,
centered, and the later style pass makes it non-bold; when the image is
the last paragraph nothing is inserted. -/
theorem claim7_caption_reconciliation :
    docTexts (formatDocumentStages claim7CapDoc) = ["", "Рисунок 1 – старое"] ∧
    docTexts (formatDocumentStages claim7InsDoc) = ["", "Рисунок 1 – ", "некоторый текст"] ∧
    ((formatDocumentStages claim7InsDoc).paras.getD 1 emptyPara).alignment
      = some Align.center ∧
    (∀ r ∈ ((formatDocumentStages claim7InsDoc).paras.getD 1 emptyPara).runs,
      r.bold = some false) ∧
    docTexts (formatDocumentStages claim7LastDoc) = [""] ∧
    (∀ p : Para, _has_image p = true →
      _process_figures 0 { paras := [p] } = { paras := [p] }) := by
  refine ⟨rfl, rfl, rfl, ?_, rfl, ?_⟩
  · decide
  · intro p hp
    show Doc.mk ([] ++ goFigures (2 * 1 + 2) 0 [p]) [] = { paras := [p] }
    unfold goFigures
    rw [if_pos (by simpa [_has_image] using hp)]
    rfl

/-- C7 witness: the general no-following-paragraph clause at a concrete
image paragraph. -/
theorem claim7_witness :
    _process_figures 0 { paras := [({ image := true } : Para)] }
      = { paras := [({ image := true } : Para)] } :=
  claim7_caption_reconciliation.2.2.2.2.2 { image := true } rfl

def claim8Doc : Doc := { paras := [onerunPara "1.1 Основы"] }

/-! ## Claim C8: numbered subheading style -/

/-- C8 counterexample: the paragraph `1.1 Основы` is a level-2 numbered
heading, and the styling stage centers it with zero first-line indent —
not justify with the base indent as claimed. -/
theorem claim8_counterexample :
    _is_subheading (paraText (claim8Doc.paras.getD 0 emptyPara)) = true ∧
    ((_format_document_content 0 claim8Doc).paras.getD 0 emptyPara).alignment
      = some Align.center ∧
    ((_format_document_content 0 claim8Doc).paras.getD 0 emptyPara).alignment
      ≠ some Align.justify ∧
    ((_format_document_content 0 claim8Doc).paras.getD 0 emptyPara).firstLineIndentCm100
      = some 0 ∧
    ((_format_document_content 0 claim8Doc).paras.getD 0 emptyPara).firstLineIndentCm100
      ≠ some GOST_INDENT_CM100 :=
  ⟨rfl, rfl, by decide, rfl, by decide⟩

/-- C8 amended: every in-scope paragraph classified as a numbered
subheading (matching `^\d+\.\d+`, not a main heading) is styled
centered with zero first-line indent, bold, at the base font size. -/
theorem claim8_subheading_style (p : Para)
    (hne : pyStrip (paraText p) ≠ "")
    (hmain : _is_main_heading (pyStrip (paraText p)) = false)
    (hsub : _is_subheading (pyStrip (paraText p)) = true) :
    _format_document_content_para p = _format_subheading p ∧
    (_format_subheading p).alignment = some Align.center ∧
    (_format_subheading p).firstLineIndentCm100 = some 0 ∧
    ∀ r ∈ (_format_subheading p).runs, r.bold = some true ∧ r.sizePt = some GOST_FONT_SIZE := by
  refine ⟨?_, rfl, rfl, ?_⟩
  · simp [_format_document_content_para, hne, hmain, hsub]
  · intro r hr
    simp only [_format_subheading, styleRuns, List.mem_map] at hr
    obtain ⟨r0, _, hr0⟩ := hr
    rw [← hr0]
    exact ⟨rfl, rfl⟩

/-- C8 witness: the subheading styling on `1.1 Основы`. -/
theorem claim8_witness :
    _format_document_content_para (onerunPara "1.1 Основы")
      = _format_subheading (onerunPara "1.1 Основы") ∧
    (_format_subheading (onerunPara "1.1 Основы")).alignment = some Align.center :=
  ⟨(claim8_subheading_style (onerunPara "1.1 Основы") (by decide) (by decide) (by decide)).1,
   (claim8_subheading_style (onerunPara "1.1 Основы") (by decide) (by decide) (by decide)).2.1⟩

theorem runStages_error_absorb (stages : List (Doc → Except Unit Doc)) :
    ∀ e : Unit, stages.foldl (fun acc st => acc.bind st) (Except.error e) = Except.error e := by
  induction stages with
  | nil => intro e; rfl
  | cons st rest ih =>
    intro e
    show rest.foldl _ ((Except.error e).bind st) = _
    exact ih e

/-! ## Claim C9: error atomicity of the entry point -/

/-- C9: a missing input file yields failure without consulting any
stage; an erroring stage anywhere in the chain yields failure with no
document saved; only the all-stages-succeeded path reports success, and
it saves exactly one document. -/
theorem claim9_error_atomicity :
    (∀ (load : Except Unit Doc) (stages : List (Doc → Except Unit Doc)),
        format_document false load stages = (false, [])) ∧
    (∀ (pre post : List (Doc → Except Unit Doc)) (d : Doc),
        format_document true (Except.ok d) (pre ++ (fun _ => Except.error ()) :: post)
          = (false, [])) ∧
    (∀ (load : Except Unit Doc) (stages : List (Doc → Except Unit Doc)) (d : Doc),
        load.bind (runStages stages) = Except.ok d →
        format_document true load stages = (true, [d])) := by
  refine ⟨fun load stages => rfl, ?_, ?_⟩
  · intro pre post d
    have habsorb : ∀ acc : Except Unit Doc,
        acc.bind (fun _ : Doc => (Except.error () : Except Unit Doc)) = Except.error () := by
      intro acc
      cases acc with
      | error e => cases e; rfl
      | ok v => rfl
    have herr : runStages (pre ++ (fun _ => Except.error ()) :: post) d = Except.error () := by
      unfold runStages
      rw [List.foldl_append]
      show post.foldl _ ((pre.foldl _ (Except.ok d)).bind (fun _ => Except.error ())) = _
      rw [habsorb]
      exact runStages_error_absorb post ()
    simp only [format_document]
    rw [if_neg (by simp)]
    have hbind : (Except.ok d).bind (runStages (pre ++ (fun _ => Except.error ()) :: post))
        = Except.error () := herr
    rw [hbind]
  · intro load stages d h
    simp only [format_document]
    rw [if_neg (by simp), h]

def claim9Doc : Doc := { paras := [onerunPara "пример текста"] }

/-- C9 witness: the pure stage chain as the single stage; one save. -/
theorem claim9_witness :
    format_document true (Except.ok claim9Doc) [fun d => Except.ok (formatDocumentStages d)]
      = (true, [formatDocumentStages claim9Doc]) :=
  claim9_error_atomicity.2.2 (Except.ok claim9Doc)
    [fun d => Except.ok (formatDocumentStages d)] (formatDocumentStages claim9Doc) rfl

/-! ## Claim C10: upload validation -/

/-- C10: the upload check accepts a filename exactly when its
lower-cased form ends with `.docx` or `.doc`, so legacy `.doc` files and
case variants such as `.DOC` / `.DocX` pass validation. -/
theorem claim10_extension_check :
    (∀ f : String, is_valid_document f =
      (strEndsWith (pyLowerStr f) ".docx" || strEndsWith (pyLowerStr f) ".doc")) ∧
    is_valid_document "Отчет.DOC" = true ∧
    is_valid_document "Диплом.DocX" = true ∧
    is_valid_document "статья.pdf" = false := by
  refine ⟨fun f => ?_, by decide, by decide, by decide⟩
  show ([".docx", ".doc"].any fun ext => strEndsWith (pyLowerStr f) ext) = _
  simp [List.any_cons, List.any_nil]

end Gost
